import Mathlib

/-!
# Verification of `treeforest/backup`

Shallow embedding of the backup engine (`backup.go`), its options (`option.go`)
and the local filesystem implementation (`local_backup.go`).

Go strings are modelled as `List Char`; the separator `/` and the dot are
single bytes, so the byte-indexed loops of `path/filepath` act on characters
exactly as they act on bytes.
-/

namespace GoBackup

/-! ## `path/filepath` on Unix, as used by `generateBackupPath` -/

/-- A Go string. -/
abbrev GoString := List Char

/-- Unix `os.IsPathSeparator`. -/
def isPathSeparator (c : Char) : Bool := c == '/'

/-- The inner loop of the `..` case of `filepath.Clean`, after `out.w--`:
`for out.w > dotdot && !os.IsPathSeparator(out.index(out.w)) { out.w-- }`.
The argument is the current `out.w`, the result the final `out.w`. -/
def backtrackIdx (buf : GoString) (dotdot : Nat) : Nat → Nat
  | 0 => 0
  | w + 1 =>
    if w + 1 > dotdot && !isPathSeparator (buf.getD (w + 1) '/') then
      backtrackIdx buf dotdot w
    else w + 1

/-- The `..` backtrack of `filepath.Clean` on the written prefix `buf[0..w)`. -/
def backtrack (out : GoString) (dotdot : Nat) : GoString :=
  out.take (backtrackIdx out dotdot (out.length - 1))

/-- The main loop `for r < n` of `filepath.Clean`.  `rest` is `path[r:]`, `out`
is the written prefix of the lazy buffer, `dotdot` the index where `..` must
stop.  Every iteration consumes at least one byte, so `n` rounds of fuel are
enough. -/
def cleanLoop (rooted : Bool) : Nat → GoString → GoString → Nat → GoString
  | 0, _, out, _ => out
  | fuel + 1, rest, out, dotdot =>
    match rest with
    | [] => out
    | c :: cs =>
      if isPathSeparator c then
        -- empty path element
        cleanLoop rooted fuel cs out dotdot
      else if c == '.' && (cs.isEmpty || isPathSeparator (cs.headD '/')) then
        -- . element
        cleanLoop rooted fuel cs out dotdot
      else if c == '.' && cs.head? == some '.' &&
          (cs.tail.isEmpty || isPathSeparator (cs.tail.headD '/')) then
        -- .. element: remove to last separator
        if out.length > dotdot then
          cleanLoop rooted fuel cs.tail (backtrack out dotdot) dotdot
        else if !rooted then
          let out1 := if out.length > 0 then out ++ ['/'] else out
          let out2 := out1 ++ ['.', '.']
          cleanLoop rooted fuel cs.tail out2 out2.length
        else
          cleanLoop rooted fuel cs.tail out dotdot
      else
        -- real path element: add slash if needed, copy element
        let out1 :=
          if (rooted && out.length != 1) || (!rooted && out.length != 0) then out ++ ['/']
          else out
        cleanLoop rooted fuel (rest.dropWhile (fun x => !isPathSeparator x))
          (out1 ++ rest.takeWhile (fun x => !isPathSeparator x)) dotdot

/-- Unix `filepath.Clean` (no volume name). -/
def Clean (path : GoString) : GoString :=
  match path with
  | [] => ['.']
  | c :: cs =>
    let rooted := isPathSeparator c
    let out :=
      if rooted then cleanLoop true path.length cs ['/'] 1
      else cleanLoop false path.length path [] 0
    if out.length == 0 then ['.'] else out

/-- Strip trailing separators (first loop of `filepath.Base`). -/
def stripTrailingSeparators (path : GoString) : GoString :=
  (path.reverse.dropWhile isPathSeparator).reverse

/-- Unix `filepath.Base`. -/
def Base (path : GoString) : GoString :=
  if path = [] then ['.']
  else
    let p := stripTrailingSeparators path
    -- find the last element
    let e := (p.reverse.takeWhile (fun x => !isPathSeparator x)).reverse
    if e = [] then ['/'] else e

/-- Unix `filepath.Dir`: `Clean(path[:i+1])` with `i` the index of the last
separator. -/
def Dir (path : GoString) : GoString :=
  Clean (path.reverse.dropWhile (fun x => !isPathSeparator x)).reverse

/-- Go `strings.Join(elems, "/")`. -/
def joinSep : List GoString → GoString
  | [] => []
  | [e] => e
  | e :: es => e ++ '/' :: joinSep es

/-- Unix `filepath.Join`: drop leading empty elements, join the rest with the
separator and clean. -/
def Join : List GoString → GoString
  | [] => []
  | e :: es => if e = [] then Join es else Clean (joinSep (e :: es))

/-- Go `generateBackupPath` (backup.go). -/
def generateBackupPath (srcPath suffix : GoString) : GoString :=
  let base := Base srcPath
  let dir := Dir srcPath
  Join [dir, base ++ suffix]

/-! ## The backup engine (`backup.go`, `option.go`) -/

/-- Go `BackupOption` (option.go). -/
structure BackupOption where
  /-- Suffix of the backup file. -/
  Suffix : GoString
  /-- Skip the backup when the source does not exist. -/
  SkipIfNotExist : Bool
  /-- The `KeepSource` flag. -/
  KeepSource : Bool
  deriving DecidableEq, Repr

/-- Go interface `Backuper`.  `σ` is everything a method can read or change
(the receiver and the storage behind it), `ε` the error values of the
implementation; an `error` result is `none` for `nil`. -/
structure Backuper (σ ε : Type) where
  /-- Method `PathExists(path string) bool`. -/
  PathExists : GoString → σ → Bool × σ
  /-- Method `Copy(src, dst string) error`. -/
  Copy : GoString → GoString → σ → Option ε × σ
  /-- Method `Rename(src, dst string) error`. -/
  Rename : GoString → GoString → σ → Option ε × σ
  /-- Method `RemoveAll(path string) error`. -/
  RemoveAll : GoString → σ → Option ε × σ

/-- One call of a `Backuper` method, with its arguments. -/
inductive Call where
  | pathExists (path : GoString)
  | copy (src dst : GoString)
  | rename (src dst : GoString)
  | removeAll (path : GoString)
  deriving DecidableEq, Repr

/-- The state behind the `Backuper` together with the chronological record of
the method calls made so far. -/
structure World (σ : Type) where
  /-- State behind the `Backuper`. -/
  state : σ
  /-- Calls made so far, oldest first. -/
  calls : List Call

/-- Error values built by the engine with `github.com/pkg/errors`. -/
inductive GoError (ε : Type) where
  /-- An error returned by a `Backuper` method. -/
  | ofBackuper (e : ε)
  /-- Go `errors.Errorf(format, args...)`. -/
  | errorf (format : String) (args : List GoString)
  /-- Go `errors.Wrapf(cause, format, args...)` for a non-nil cause. -/
  | wrapf (cause : GoError ε) (format : String) (args : List GoString)
  deriving DecidableEq, Repr

/-- Call `b.PathExists(path)`. -/
def callPathExists {σ ε : Type} (b : Backuper σ ε) (path : GoString) (w : World σ) :
    Bool × World σ :=
  ((b.PathExists path w.state).1,
    ⟨(b.PathExists path w.state).2, w.calls ++ [Call.pathExists path]⟩)

/-- Call `b.Copy(src, dst)`. -/
def callCopy {σ ε : Type} (b : Backuper σ ε) (src dst : GoString) (w : World σ) :
    Option ε × World σ :=
  ((b.Copy src dst w.state).1, ⟨(b.Copy src dst w.state).2, w.calls ++ [Call.copy src dst]⟩)

/-- Call `b.Rename(src, dst)`. -/
def callRename {σ ε : Type} (b : Backuper σ ε) (src dst : GoString) (w : World σ) :
    Option ε × World σ :=
  ((b.Rename src dst w.state).1,
    ⟨(b.Rename src dst w.state).2, w.calls ++ [Call.rename src dst]⟩)

/-- Call `b.RemoveAll(path)`. -/
def callRemoveAll {σ ε : Type} (b : Backuper σ ε) (path : GoString) (w : World σ) :
    Option ε × World σ :=
  ((b.RemoveAll path w.state).1,
    ⟨(b.RemoveAll path w.state).2, w.calls ++ [Call.removeAll path]⟩)

/-- A registered closure `func() error`: run later by the caller, on the world
as it is then. -/
abbrev Action (σ ε : Type) := World σ → Option (GoError ε) × World σ

/-- The rollback registry `rollback.Rollbacker` (package
`github.com/treeforest/rollback`, an external collaborator): the engine only
registers closures.  `PushFront` prepends to the undo sequence, `PushDefer`
appends to the deferred sequence. -/
structure Rollbacker (σ ε : Type) where
  /-- Undo actions, the one that runs first at the head. -/
  undo : List (Action σ ε)
  /-- Deferred actions, in registration order. -/
  deferred : List (Action σ ε)

/-- Method `PushFront` of the registry. -/
def Rollbacker.PushFront {σ ε : Type} (rb : Rollbacker σ ε) (f : Action σ ε) :
    Rollbacker σ ε :=
  { rb with undo := f :: rb.undo }

/-- Method `PushDefer` of the registry. -/
def Rollbacker.PushDefer {σ ε : Type} (rb : Rollbacker σ ε) (f : Action σ ε) :
    Rollbacker σ ε :=
  { rb with deferred := rb.deferred ++ [f] }

/-- A reading of the wall clock, `time.Now()`. -/
structure Time where
  year : Nat
  month : Nat
  day : Nat
  hour : Nat
  minute : Nat
  second : Nat

/-- Decimal digit. -/
def digitChar (n : Nat) : Char := Char.ofNat (48 + n % 10)

/-- Two-digit zero padded decimal field. -/
def twoDigits (n : Nat) : GoString := [digitChar (n / 10), digitChar n]

/-- Go `t.Format(".backup.20060102150405")`. -/
def formatBackupSuffix (t : Time) : GoString :=
  ".backup.".toList ++ twoDigits (t.year / 100) ++ twoDigits t.year ++ twoDigits t.month ++
    twoDigits t.day ++ twoDigits t.hour ++ twoDigits t.minute ++ twoDigits t.second

/-- Go `performBackup` (backup.go). -/
def performBackup {σ ε : Type} (b : Backuper σ ε) (src dst : GoString) (keepSource : Bool)
    (w : World σ) : Option (GoError ε) × World σ :=
  if keepSource then
    match callRename b src dst w with
    | (some err, w1) =>
      (some (GoError.wrapf (GoError.ofBackuper err) "文件备份失败: %s -> %s" [src, dst]), w1)
    | (none, w1) => (none, w1)
  else
    match callCopy b src dst w with
    | (some err, w1) =>
      (some (GoError.wrapf (GoError.ofBackuper err) "文件备份失败: %s -> %s" [src, dst]), w1)
    | (none, w1) => (none, w1)

/-- The undo closure of `registerRollback`: clear the current source path, then
rename the backup back onto it. -/
def restoreAction {σ ε : Type} (b : Backuper σ ε) (srcPath backupPath : GoString) :
    Action σ ε := fun w =>
  -- clear the current source path
  let cleared : Option (GoError ε) × World σ :=
    match callPathExists b srcPath w with
    | (true, w1) =>
      match callRemoveAll b srcPath w1 with
      | (some err, w2) =>
        (some (GoError.wrapf (GoError.ofBackuper err) "清理当前路径失败: %s" [srcPath]), w2)
      | (none, w2) => (none, w2)
    | (false, w1) => (none, w1)
  match cleared with
  | (some err, w2) => (some err, w2)
  | (none, w2) =>
    -- restore the backup
    match callRename b backupPath srcPath w2 with
    | (some err, w3) =>
      (some (GoError.wrapf (GoError.ofBackuper err) "恢复备份失败: %s -> %s"
        [backupPath, srcPath]), w3)
    | (none, w3) => (none, w3)

/-- The deferred closure of `registerRollback`: delete the backup if it still
exists. -/
def cleanupAction {σ ε : Type} (b : Backuper σ ε) (backupPath : GoString) :
    Action σ ε := fun w =>
  match callPathExists b backupPath w with
  | (false, w1) => (none, w1)
  | (true, w1) =>
    match callRemoveAll b backupPath w1 with
    | (some err, w2) =>
      (some (GoError.wrapf (GoError.ofBackuper err) "清理备份文件失败: %s" [backupPath]), w2)
    | (none, w2) => (none, w2)

/-- Go `registerRollback` (backup.go). -/
def registerRollback {σ ε : Type} (rb : Rollbacker σ ε) (b : Backuper σ ε)
    (srcPath backupPath : GoString) (keepSource : Bool) : Rollbacker σ ε :=
  let rb1 := if !keepSource then rb.PushFront (restoreAction b srcPath backupPath) else rb
  rb1.PushDefer (cleanupAction b backupPath)

/-- What a call of `Backup` leaves behind: its three results, the registry and
the world. -/
structure Outcome (σ ε : Type) where
  /-- First result, the backup path. -/
  backupPath : GoString
  /-- Second result, whether a backup was made. -/
  performed : Bool
  /-- Third result, the error. -/
  err : Option (GoError ε)
  /-- The registry after the call (`none` for a nil registry). -/
  registry : Option (Rollbacker σ ε)
  /-- The world after the call. -/
  world : World σ

/-- The options `Backup` works with (backup.go, lines 35-42): the defaults,
replaced as a whole by `opts[0]` when the caller passes options. -/
def effectiveOption (now : Time) (opts : List BackupOption) : BackupOption :=
  match opts with
  | [] => { Suffix := formatBackupSuffix now, SkipIfNotExist := true, KeepSource := false }
  | o :: _ => o

/-- The stale-backup step of `Backup` (backup.go, lines 55-60): remove whatever
exists at the backup path. -/
def clearStale {σ ε : Type} (b : Backuper σ ε) (backupPath : GoString) (w : World σ) :
    Option (GoError ε) × World σ :=
  match callPathExists b backupPath w with
  | (true, w2) =>
    match callRemoveAll b backupPath w2 with
    | (some err, w3) =>
      (some (GoError.wrapf (GoError.ofBackuper err) "清理旧备份失败: %s" [backupPath]), w3)
    | (none, w3) => (none, w3)
  | (false, w2) => (none, w2)

/-- Go `Backup` (backup.go).  `now` is the clock reading of `time.Now()`,
`opts` the variadic options. -/
def Backup {σ ε : Type} (now : Time) (rb : Option (Rollbacker σ ε)) (b : Backuper σ ε)
    (srcPath : GoString) (opts : List BackupOption) (w : World σ) : Outcome σ ε :=
  -- optional parameters
  let opt : BackupOption := effectiveOption now opts
  -- does the source exist
  match callPathExists b srcPath w with
  | (false, w1) =>
    if opt.SkipIfNotExist then ⟨[], false, none, rb, w1⟩
    else ⟨[], false, some (GoError.errorf "源路径不存在: %s" [srcPath]), rb, w1⟩
  | (true, w1) =>
    let backupPath := generateBackupPath srcPath opt.Suffix
    -- clear a stale backup
    match clearStale b backupPath w1 with
    | (some err, w3) => ⟨[], false, some err, rb, w3⟩
    | (none, w3) =>
      -- the backup itself
      match performBackup b srcPath backupPath opt.KeepSource w3 with
      | (some err, w4) => ⟨[], false, some err, rb, w4⟩
      | (none, w4) =>
        -- register the rollback
        let rb1 :=
          match rb with
          | some r => some (registerRollback r b srcPath backupPath opt.KeepSource)
          | none => none
        ⟨backupPath, true, none, rb1, w4⟩

/-! ## An in-memory `Backuper` with a flat name space -/

/-- A flat store: the content held under each path. -/
abbrev Store := List (GoString × GoString)

/-- Drop whatever is held under `path`. -/
def Store.erase (s : Store) (path : GoString) : Store :=
  s.filter (fun kv => kv.1 != path)

/-- Errors of the in-memory store. -/
inductive StoreError where
  | notExist (path : GoString)
  deriving DecidableEq, Repr

/-- The in-memory `Backuper`: paths are opaque keys, two different strings
name two different objects. -/
def memBackuper : Backuper Store StoreError where
  PathExists := fun path s => ((s.lookup path).isSome, s)
  Copy := fun src dst s =>
    match s.lookup src with
    | none => (some (StoreError.notExist src), s)
    | some c =>
      if src = dst then (some (StoreError.notExist src), s.erase dst)
      else (none, (dst, c) :: s.erase dst)
  Rename := fun src dst s =>
    match s.lookup src with
    | none => (some (StoreError.notExist src), s)
    | some c =>
      if src = dst then (none, s)
      else (none, (dst, c) :: (s.erase src).erase dst)
  RemoveAll := fun path s => (none, s.erase path)

/-- Content held under a path of the in-memory store. -/
def memRead (s : Store) (path : GoString) : Option GoString := s.lookup path

/-- The test double `errorInjectBackup` of backup_test.go; the receiver's only
field `failAt` is never written, so there is no state. -/
def errorInjectBackup (failAt : String) : Backuper Unit String where
  PathExists := fun path s => (path == "/fake/path".toList, s)
  Rename := fun _ _ s => (none, s)
  Copy := fun _ _ s => if failAt == "Copy" then (some "模拟拷贝失败", s) else (none, s)
  RemoveAll := fun _ s => if failAt == "RemoveAll" then (some "模拟删除失败", s) else (none, s)

/-- What "behaves like a filesystem" means for a `Backuper` during one backup:
laws about the two paths the engine touches, the source path `src` and the
backup path `dst`, in the states `ok` (the states in which both paths can be
looked up).  `read s p` is what is held at path `p` in state `s`, `free s` says
that the place of `src` is free in `s` (nothing is held there, the directory it
lives in is there), and `nested` that `dst` names `src` or something inside
it. -/
structure FsLike {σ ε κ : Type} (b : Backuper σ ε) (read : σ → GoString → Option κ)
    (ok free : σ → Prop) (nested : Prop) (src dst : GoString) : Prop where
  /-- `PathExists(src)` is a query: it tells whether the path holds something
  and changes nothing. -/
  exists_src : ∀ s, ok s → b.PathExists src s = ((read s src).isSome, s)
  /-- `PathExists(dst)` is a query. -/
  exists_dst : ∀ s, ok s → b.PathExists dst s = ((read s dst).isSome, s)
  /-- A `RemoveAll(dst)` that succeeds leaves nothing at `dst`; what `src` holds
  is untouched or removed with it. -/
  removeAll_dst : ∀ s, ok s → (b.RemoveAll dst s).1 = none →
    ok (b.RemoveAll dst s).2 ∧ read (b.RemoveAll dst s).2 dst = none ∧
    (read (b.RemoveAll dst s).2 src = read s src ∨ read (b.RemoveAll dst s).2 src = none)
  /-- A `Copy(src, dst)` that succeeds onto an absent `dst` had an existing
  source, with `dst` not inside it, and leaves the source's content at `dst`. -/
  copy_post : ∀ s, ok s → read s dst = none → (b.Copy src dst s).1 = none →
    ok (b.Copy src dst s).2 ∧ (read s src).isSome = true ∧ ¬ nested ∧
    read (b.Copy src dst s).2 dst = read s src
  /-- `RemoveAll(src)` of something that exists succeeds and frees the place of
  `src`; it leaves `dst` alone unless `dst` is inside `src`. -/
  removeAll_src : ∀ s, ok s → (read s src).isSome = true →
    (b.RemoveAll src s).1 = none ∧ free (b.RemoveAll src s).2 ∧
    (¬ nested → read (b.RemoveAll src s).2 dst = read s dst)
  /-- `Rename(dst, src)` onto the free place of `src` succeeds and moves the
  content. -/
  rename_back : ∀ s, free s → (read s dst).isSome = true →
    (b.Rename dst src s).1 = none ∧ ok (b.Rename dst src s).2 ∧
    read (b.Rename dst src s).2 src = read s dst ∧ read (b.Rename dst src s).2 dst = none

/-- The clock reading used in the examples. -/
def exampleNow : Time := ⟨2023, 1, 2, 3, 4, 5⟩

/-- A store holding one file. -/
def exampleStore : Store := [("/data/file.txt".toList, "test data".toList)]

/-- The store after the backup to `.bak` and the caller's overwrite. -/
def overwrittenStore : Store :=
  [("/data/file.txt".toList, "modified".toList), ("/data/file.txt.bak".toList, "test data".toList)]

/-! ## Path elements and the states of `filepath.Clean` -/

/-- The loop of `filepath.Clean` with exactly the fuel it needs. -/
def cleanRun (rooted : Bool) (rest out : GoString) (dotdot : Nat) : GoString :=
  cleanLoop rooted rest.length rest out dotdot

/-- A single path element: not empty, no separator, neither `.` nor `..`. -/
def ProperElem (e : GoString) : Prop :=
  e ≠ [] ∧ '/' ∉ e ∧ e ≠ ['.'] ∧ e ≠ ['.', '.']

instance (e : GoString) : Decidable (ProperElem e) := by
  unfold ProperElem; infer_instance

/-- What may follow a path element: the end of the path or a separator. -/
def Boundary (t : GoString) : Prop := t = [] ∨ ∃ t', t = '/' :: t'

/-- The elements of a path, each behind its separator. -/
def segs : List GoString → GoString
  | [] => []
  | e :: es => '/' :: e ++ segs es

/-- The `..` elements that lead a relative path. -/
def dotdots (k : Nat) : List GoString := List.replicate k ['.', '.']

/-- The leading separator of a rooted path. -/
def rootLead (rooted : Bool) : GoString := if rooted then ['/'] else []

/-- The buffer `filepath.Clean` holds after writing the elements `els`. -/
def render (rooted : Bool) (els : List GoString) : GoString :=
  rootLead rooted ++ (segs els).tail

/-- The states the loop of `filepath.Clean` runs through: `k` leading `..`
elements (none in a rooted path), then proper names; `dotdot` marks the end of
the `..` elements. -/
def CState (rooted : Bool) (out : GoString) (dotdot : Nat) : Prop :=
  ∃ (k : Nat) (names : List GoString), (rooted = true → k = 0) ∧
    (∀ e ∈ names, ProperElem e) ∧ out = render rooted (dotdots k ++ names) ∧
    dotdot = (render rooted (dotdots k)).length

/-- The last step of `filepath.Clean`: the empty buffer becomes `.`. -/
def finish (out : GoString) : GoString := if out.length == 0 then ['.'] else out

/-- The cases of `cleantests` and `nonwincleantests` in Go's
`path/filepath/path_test.go`. -/
def cleanTests : List (String × String) :=
  [("abc", "abc"), ("abc/def", "abc/def"), ("a/b/c", "a/b/c"), (".", "."), ("..", ".."),
    ("../..", "../.."), ("../../abc", "../../abc"), ("/abc", "/abc"), ("/", "/"), ("", "."),
    ("abc/", "abc"), ("abc/def/", "abc/def"), ("a/b/c/", "a/b/c"), ("./", "."), ("../", ".."),
    ("../../", "../.."), ("/abc/", "/abc"), ("abc//def//ghi", "abc/def/ghi"), ("abc//", "abc"),
    ("abc/./def", "abc/def"), ("/./abc/def", "/abc/def"), ("abc/.", "abc"),
    ("abc/def/ghi/../jkl", "abc/def/jkl"), ("abc/def/../ghi/../jkl", "abc/jkl"),
    ("abc/def/..", "abc"), ("abc/def/../..", "."), ("/abc/def/../..", "/"),
    ("abc/def/../../..", ".."), ("/abc/def/../../..", "/"),
    ("abc/def/../../../ghi/jkl/../../../mno", "../../mno"), ("/../abc", "/abc"),
    ("a/../b:/../../c", "../c"), ("abc/./../def", "def"), ("abc//./../def", "def"),
    ("abc/../../././../def", "../../def"), ("//abc", "/abc"), ("///abc", "/abc"),
    ("//abc//", "/abc")]

/-- The cases of `basetests` in Go's `path/filepath/path_test.go`. -/
def baseTests : List (String × String) :=
  [("", "."), (".", "."), ("/.", "."), ("/", "/"), ("////", "/"), ("x/", "x"), ("abc", "abc"),
    ("abc/def", "def"), ("a/b/.x", ".x"), ("a/b/c.", "c."), ("a/b/c.x", "c.x")]

/-- The cases of `dirtests` in Go's `path/filepath/path_test.go`. -/
def dirTests : List (String × String) :=
  [("", "."), (".", "."), ("/.", "/"), ("/", "/"), ("/foo", "/"), ("x/", "x"), ("abc", "."),
    ("abc/def", "abc"), ("a/b/.x", "a/b"), ("a/b/c.", "a/b"), ("a/b/c.x", "a/b")]

/-- The Unix cases of `jointests` in Go's `path/filepath/path_test.go`. -/
def joinTests : List (List String × String) :=
  [([], ""), ([""], ""), (["/"], "/"), (["a"], "a"), (["a", "b"], "a/b"), (["a", ""], "a"),
    (["", "b"], "b"), (["/", "a"], "/a"), (["/", "a/b"], "/a/b"), (["/", ""], "/"),
    (["/a", "b"], "/a/b"), (["a", "/b"], "a/b"), (["/a", "/b"], "/a/b"), (["a/", "b"], "a/b"),
    (["a/", ""], "a"), (["", ""], ""), (["/", "a", "b"], "/a/b"), (["//", "a"], "/a")]

/-! ## The local filesystem behind `LocalBackupImpl` (`local_backup.go`)

The package `os` is modelled by an idealised Unix filesystem: a tree of
directories and regular files, no symbolic or hard links, no permission
checks, no input/output failures.  A system call fails only for a reason that
can be read off the tree (`ENOENT`, `ENOTDIR`, `EEXIST`, ...). -/

/-- The place of a node: the names on the way from the root. -/
abbrev Loc := List GoString

/-- A node of the tree: a regular file with its permission bits, modification
time and bytes, or a directory with its permission bits and modification time. -/
inductive Node where
  | file (perm modTime : Nat) (data : GoString)
  | dir (perm modTime : Nat)
  deriving DecidableEq, Repr

/-- Whether the node is a directory. -/
def Node.isDir : Node → Bool
  | Node.dir _ _ => true
  | Node.file _ _ _ => false

/-- Permission bits of the node. -/
def Node.perm : Node → Nat
  | Node.dir p _ => p
  | Node.file p _ _ => p

/-- Modification time of the node. -/
def Node.modTime : Node → Nat
  | Node.dir _ t => t
  | Node.file _ t _ => t

/-- The node with other permission bits. -/
def Node.setPerm (p : Nat) : Node → Node
  | Node.dir _ t => Node.dir p t
  | Node.file _ t d => Node.file p t d

/-- The node with another modification time. -/
def Node.setModTime (t : Nat) : Node → Node
  | Node.dir p _ => Node.dir p t
  | Node.file p _ d => Node.file p t d

/-- The filesystem: its nodes (each place at most once), the working
directory of the process, its umask and the clock. -/
structure FS where
  nodes : List (Loc × Node)
  cwd : Loc
  umask : Nat
  clock : Nat
  deriving DecidableEq, Repr

/-- Error numbers of the system calls. -/
inductive Errno where
  | ENOENT
  | ENOTDIR
  | EEXIST
  | EISDIR
  | EINVAL
  | ENOTEMPTY
  | EBUSY
  deriving DecidableEq, Repr

/-- Go `os.IsNotExist(err)` on an error of a system call. -/
def Errno.isNotExist : Errno → Bool
  | Errno.ENOENT => true
  | _ => false

/-- The node at a place. -/
def FS.lookup (fs : FS) (loc : Loc) : Option Node := fs.nodes.lookup loc

/-- Put a node at a place (replacing what is there). -/
def FS.put (fs : FS) (loc : Loc) (n : Node) : FS :=
  { fs with nodes := (loc, n) :: fs.nodes.filter (fun kv => kv.1 != loc) }

/-- Drop a place and everything below it. -/
def FS.dropTree (fs : FS) (loc : Loc) : FS :=
  { fs with nodes := fs.nodes.filter (fun kv => !(loc.isPrefixOf kv.1)) }

/-- Advance the clock. -/
def FS.tick (fs : FS) : FS := { fs with clock := fs.clock + 1 }

/-- Set the modification time of the directory that holds `loc` to the
current time (an entry was added to it or removed from it). -/
def FS.touchParent (fs : FS) (loc : Loc) : FS :=
  match loc with
  | [] => fs
  | _ :: _ =>
    match fs.lookup loc.dropLast with
    | some n => fs.put loc.dropLast (n.setModTime fs.clock)
    | none => fs

/-- The components of a path: the pieces between separators. -/
def splitSep (p : GoString) : List GoString :=
  p.foldr (fun c acc => if c = '/' then [] :: acc else (c :: acc.headD []) :: acc.tail) [[]]

/-- Path resolution: walk the components from `cur`.  Every component is
looked up in a directory that must exist; `.` and empty components stay, `..`
goes to the parent (the root is its own parent), a name goes down.  The place
reached by the last component need not exist. -/
def walkFrom (fs : FS) : Loc → List GoString → Except Errno Loc
  | cur, [] => Except.ok cur
  | cur, c :: cs =>
    match fs.lookup cur with
    | none => Except.error Errno.ENOENT
    | some (Node.file _ _ _) => Except.error Errno.ENOTDIR
    | some (Node.dir _ _) =>
      if c = [] ∨ c = ['.'] then walkFrom fs cur cs
      else if c = ['.', '.'] then walkFrom fs cur.dropLast cs
      else walkFrom fs (cur ++ [c]) cs

/-- The place a path names: absolute paths start at the root, relative ones
at the working directory; the empty path names nothing. -/
def resolve (fs : FS) (p : GoString) : Except Errno Loc :=
  if p = [] then Except.error Errno.ENOENT
  else if p.head? = some '/' then walkFrom fs [] (splitSep p)
  else walkFrom fs fs.cwd (splitSep p)

/-- The fields of `os.FileInfo` the package reads: `IsDir()`, `Mode().Perm()`
and `ModTime()`. -/
structure FileInfo where
  isDir : Bool
  perm : Nat
  modTime : Nat
  deriving DecidableEq, Repr

/-- Go `os.Stat`. -/
def osStat (fs : FS) (p : GoString) : Except Errno FileInfo :=
  match resolve fs p with
  | Except.error e => Except.error e
  | Except.ok loc =>
    match fs.lookup loc with
    | none => Except.error Errno.ENOENT
    | some n => Except.ok ⟨n.isDir, n.perm, n.modTime⟩

/-- Go `endsWithDot` of `os.RemoveAll`. -/
def endsWithDot (p : GoString) : Bool :=
  p == ['.'] || (p.length ≥ 2 && p.getLast? == some '.' && p.dropLast.getLast? == some '/')

/-- Go `os.RemoveAll`: nil for the empty path and for what does not exist,
`EINVAL` for a path ending in a dot element; otherwise the node and everything
below it are removed. -/
def osRemoveAll (fs : FS) (p : GoString) : Option Errno × FS :=
  if p = [] then (none, fs)
  else if endsWithDot p then (some Errno.EINVAL, fs)
  else
    match resolve fs p with
    | Except.error e => if e.isNotExist then (none, fs) else (some e, fs)
    | Except.ok loc =>
      match fs.lookup loc with
      | none => (none, fs)
      | some _ => (none, ((fs.dropTree loc).touchParent loc).tick)

/-- Permission bits left by the umask. -/
def applyUmask (fs : FS) (perm : Nat) : Nat := perm &&& (0o777 ^^^ (fs.umask &&& 0o777))

/-- Go `os.Mkdir`. -/
def osMkdir (fs : FS) (p : GoString) (perm : Nat) : Option Errno × FS :=
  match resolve fs p with
  | Except.error e => (some e, fs)
  | Except.ok loc =>
    match fs.lookup loc with
    | some _ => (some Errno.EEXIST, fs)
    | none =>
      match loc with
      | [] => (some Errno.ENOENT, fs)
      | _ :: _ =>
        match fs.lookup loc.dropLast with
        | some (Node.dir _ _) =>
          (none, ((fs.put loc (Node.dir (applyUmask fs perm) fs.clock)).touchParent loc).tick)
        | some (Node.file _ _ _) => (some Errno.ENOTDIR, fs)
        | none => (some Errno.ENOENT, fs)

/-- One entry of `os.ReadDir`: `Name()` and `IsDir()`. -/
structure DirEntry where
  name : GoString
  isDir : Bool
  deriving DecidableEq, Repr

/-- The entries of the directory at `loc`, sorted by name. -/
def FS.entries (fs : FS) (loc : Loc) : List DirEntry :=
  (fs.nodes.filterMap (fun kv =>
    match kv.1.getLast? with
    | some name => if kv.1.dropLast = loc then some (⟨name, kv.2.isDir⟩ : DirEntry) else none
    | none => none)).insertionSort (fun a b => a.name ≤ b.name)

/-- Go `os.ReadDir`. -/
def osReadDir (fs : FS) (p : GoString) : Except Errno (List DirEntry) :=
  match resolve fs p with
  | Except.error e => Except.error e
  | Except.ok loc =>
    match fs.lookup loc with
    | none => Except.error Errno.ENOENT
    | some (Node.file _ _ _) => Except.error Errno.ENOTDIR
    | some (Node.dir _ _) => Except.ok (fs.entries loc)

/-- Go `os.Open`: the open file is named by its place. -/
def osOpen (fs : FS) (p : GoString) : Except Errno Loc :=
  match resolve fs p with
  | Except.error e => Except.error e
  | Except.ok loc =>
    match fs.lookup loc with
    | none => Except.error Errno.ENOENT
    | some _ => Except.ok loc

/-- Go `os.OpenFile(name, os.O_RDWR|os.O_CREATE|os.O_TRUNC, perm)`: an existing
file is emptied, a missing one is created empty with the permission bits the
umask leaves. -/
def osOpenFileCreateTrunc (fs : FS) (p : GoString) (perm : Nat) : Except Errno Loc × FS :=
  match resolve fs p with
  | Except.error e => (Except.error e, fs)
  | Except.ok loc =>
    match fs.lookup loc with
    | some (Node.dir _ _) => (Except.error Errno.EISDIR, fs)
    | some (Node.file q _ _) => (Except.ok loc, (fs.put loc (Node.file q fs.clock [])).tick)
    | none =>
      match loc with
      | [] => (Except.error Errno.ENOENT, fs)
      | _ :: _ =>
        match fs.lookup loc.dropLast with
        | some (Node.dir _ _) =>
          (Except.ok loc,
            ((fs.put loc (Node.file (applyUmask fs perm) fs.clock [])).touchParent loc).tick)
        | some (Node.file _ _ _) => (Except.error Errno.ENOTDIR, fs)
        | none => (Except.error Errno.ENOENT, fs)

/-- Go `io.Copy(dstFile, srcFile)` on two open files: all bytes of the source
are written to the destination. -/
def ioCopy (fs : FS) (dst src : Loc) : Option Errno × FS :=
  match fs.lookup src, fs.lookup dst with
  | some (Node.file _ _ d), some (Node.file q _ _) =>
    (none, (fs.put dst (Node.file q fs.clock d)).tick)
  | some (Node.dir _ _), _ => (some Errno.EISDIR, fs)
  | _, _ => (some Errno.ENOENT, fs)

/-- Go `os.Chtimes(name, atime, mtime)`; access times are not modelled. -/
def osChtimes (fs : FS) (p : GoString) (mtime : Nat) : Option Errno × FS :=
  match resolve fs p with
  | Except.error e => (some e, fs)
  | Except.ok loc =>
    match fs.lookup loc with
    | none => (some Errno.ENOENT, fs)
    | some n => (none, fs.put loc (n.setModTime mtime))

/-- Go `os.Chmod`. -/
def osChmod (fs : FS) (p : GoString) (perm : Nat) : Option Errno × FS :=
  match resolve fs p with
  | Except.error e => (some e, fs)
  | Except.ok loc =>
    match fs.lookup loc with
    | none => (some Errno.ENOENT, fs)
    | some n => (none, fs.put loc (n.setPerm perm))

/-- One call into package `os` or `io`, with the path it is made on.  Open
files are named by the path they were opened with. -/
inductive SysOp where
  | stat (path : GoString)
  | removeAll (path : GoString)
  | mkdir (path : GoString) (perm : Nat)
  | readDir (path : GoString)
  | openRead (path : GoString)
  | openFile (path : GoString) (perm : Nat)
  | ioCopy (dst src : GoString)
  | chtimes (path : GoString) (mtime : Nat)
  | chmod (path : GoString) (perm : Nat)
  | sync (path : GoString)
  | close (path : GoString)
  | rename (oldpath newpath : GoString)
  deriving DecidableEq, Repr

/-- The filesystem together with the chronological record of the calls made
on it. -/
structure LocalWorld where
  fs : FS
  ops : List SysOp
  deriving DecidableEq, Repr

/-- Record a call. -/
def LocalWorld.log (w : LocalWorld) (op : SysOp) : LocalWorld := ⟨w.fs, w.ops ++ [op]⟩

/-- Error values of `local_backup.go`. -/
inductive LocalError where
  /-- An error of a system call. -/
  | sys (e : Errno)
  /-- Go `errors.Wrap(cause, message)` for a non-nil cause. -/
  | wrap (cause : LocalError) (message : String)
  /-- Go `context.Canceled`, returned by `ctx.Err()`. -/
  | canceled
  deriving DecidableEq, Repr

/-- Go `(*LocalBackupImpl).PathExists`. -/
def LocalBackupImpl.PathExists (path : GoString) (w : LocalWorld) : Bool × LocalWorld :=
  if path = [] then (false, w)
  else
    match osStat w.fs path with
    | Except.error e => (if e.isNotExist then false else true, w.log (SysOp.stat path))
    | Except.ok _ => (true, w.log (SysOp.stat path))

/-- Go `(*LocalBackupImpl).RemoveAll`. -/
def LocalBackupImpl.RemoveAll (path : GoString) (w : LocalWorld) :
    Option LocalError × LocalWorld :=
  ((osRemoveAll w.fs path).1.map LocalError.sys,
    ⟨(osRemoveAll w.fs path).2, w.ops ++ [SysOp.removeAll path]⟩)

/-- Go `(*LocalBackupImpl).preserveMetadata`: the modification time, then the
permission bits. -/
def LocalBackupImpl.preserveMetadata (info : FileInfo) (path : GoString) (w : LocalWorld) :
    Option LocalError × LocalWorld :=
  match osChtimes w.fs path info.modTime with
  | (some e, fs1) => (some (LocalError.sys e), ⟨fs1, w.ops ++ [SysOp.chtimes path info.modTime]⟩)
  | (none, fs1) =>
    ((osChmod fs1 path info.perm).1.map LocalError.sys,
      ⟨(osChmod fs1 path info.perm).2,
        w.ops ++ [SysOp.chtimes path info.modTime] ++ [SysOp.chmod path info.perm]⟩)

/-- The first step of `copyFile` and `copyDirectory`: remove what exists at the
destination. -/
def LocalBackupImpl.removeOld (dst : GoString) (message : String) (w : LocalWorld) :
    Option LocalError × LocalWorld :=
  match LocalBackupImpl.PathExists dst w with
  | (true, w1) =>
    match LocalBackupImpl.RemoveAll dst w1 with
    | (some err, w2) => (some (LocalError.wrap err message), w2)
    | (none, w2) => (none, w2)
  | (false, w1) => (none, w1)

/-- Go `(*LocalBackupImpl).copyFile`.  The deferred `Close` calls run when the
function returns, the destination first. -/
def LocalBackupImpl.copyFile (src dst : GoString) (w : LocalWorld) :
    Option LocalError × LocalWorld :=
  -- remove the old file
  match LocalBackupImpl.removeOld dst "删除旧文件失败" w with
  | (some err, w1) => (some err, w1)
  | (none, w1) =>
    -- the source's file information
    match osStat w1.fs src with
    | Except.error e =>
      (some (LocalError.wrap (LocalError.sys e) "获取源文件状态失败"), w1.log (SysOp.stat src))
    | Except.ok srcInfo =>
      let w2 := w1.log (SysOp.stat src)
      let perm := srcInfo.perm
      -- open the source
      match osOpen w2.fs src with
      | Except.error e => (some (LocalError.sys e), w2.log (SysOp.openRead src))
      | Except.ok srcFile =>
        let w3 := w2.log (SysOp.openRead src)
        -- create the destination
        match osOpenFileCreateTrunc w3.fs dst perm with
        | (Except.error e, fs4) =>
          (some (LocalError.wrap (LocalError.sys e) "创建目标文件失败"),
            (LocalWorld.mk fs4 (w3.ops ++ [SysOp.openFile dst perm])).log (SysOp.close src))
        | (Except.ok dstFile, fs4) =>
          let w4 : LocalWorld := ⟨fs4, w3.ops ++ [SysOp.openFile dst perm]⟩
          -- copy the content
          match ioCopy w4.fs dstFile srcFile with
          | (some e, fs5) =>
            (some (LocalError.wrap (LocalError.sys e) "文件内容拷贝失败"),
              ((LocalWorld.mk fs5 (w4.ops ++ [SysOp.ioCopy dst src])).log
                (SysOp.close dst)).log (SysOp.close src))
          | (none, fs5) =>
            let w5 : LocalWorld := ⟨fs5, w4.ops ++ [SysOp.ioCopy dst src]⟩
            -- metadata (permissions and time stamps)
            match LocalBackupImpl.preserveMetadata srcInfo dst w5 with
            | (some err, w6) =>
              (some (LocalError.wrap err "保留元数据失败"),
                (w6.log (SysOp.close dst)).log (SysOp.close src))
            | (none, w6) =>
              -- sync to disk
              (none, ((w6.log (SysOp.sync dst)).log (SysOp.close dst)).log (SysOp.close src))

/-- Go `errgroup.Group` with its context, run on the schedule without overlap:
a function passed to `Go` runs to its end where it is started.  The group
keeps the first error; the context is cancelled from then on. -/
structure Group where
  /-- The limit set by `SetLimit` (no effect on this schedule). -/
  limit : Option Nat
  /-- The first error returned by a task. -/
  err : Option LocalError
  deriving DecidableEq, Repr

/-- Go `g.Go` with the task of `copyDirectory`: the task returns `ctx.Err()`
when the context is done and `b.copyFile(srcPath, dstPath)` otherwise. -/
def Group.goCopyFile (g : Group) (srcPath dstPath : GoString) (w : LocalWorld) :
    Group × LocalWorld :=
  match g.err with
  | some _ => (g, w)
  | none =>
    match LocalBackupImpl.copyFile srcPath dstPath w with
    | (some err, w1) => ({ g with err := some err }, w1)
    | (none, w1) => (g, w1)

/-- The loop over the directory entries in `copyDirectory`; `recurse` is
`copyDirectory` itself.  The first component of the result is the error of a
subdirectory, on which `copyDirectory` returns at once. -/
def LocalBackupImpl.copyEntries
    (recurse : GoString → GoString → LocalWorld → Option (Option LocalError × LocalWorld))
    (src dst : GoString) :
    List DirEntry → Group → LocalWorld → Option (Option LocalError × Group × LocalWorld)
  | [], g, w => some (none, g, w)
  | entry :: rest, g, w =>
    let srcPath := Join [src, entry.name]
    let dstPath := Join [dst, entry.name]
    if entry.isDir then
      -- subdirectories are copied synchronously
      match recurse srcPath dstPath w with
      | none => none
      | some (some err, w1) => some (some err, g, w1)
      | some (none, w1) => LocalBackupImpl.copyEntries recurse src dst rest g w1
    else
      -- files are handed to the group
      match g.goCopyFile srcPath dstPath w with
      | (g1, w1) => LocalBackupImpl.copyEntries recurse src dst rest g1 w1

/-- Go `(*LocalBackupImpl).copyDirectory`.  `concurrency` is the field
`Concurrency` of the receiver; the first argument bounds the depth of the
recursion, and the result is `none` when the bound is reached. -/
def LocalBackupImpl.copyDirectory (concurrency : Int) :
    Nat → GoString → GoString → LocalWorld → Option (Option LocalError × LocalWorld)
  | 0, _, _, _ => none
  | fuel + 1, src, dst, w =>
    let g : Group := ⟨if concurrency > 0 then some concurrency.toNat else none, none⟩
    -- the source directory's file information
    match osStat w.fs src with
    | Except.error e =>
      some (some (LocalError.wrap (LocalError.sys e) "获取源目录信息失败"),
        w.log (SysOp.stat src))
    | Except.ok srcInfo =>
      -- remove the old directory
      match LocalBackupImpl.removeOld dst "删除旧目录失败" (w.log (SysOp.stat src)) with
      | (some err, w1) => some (some err, w1)
      | (none, w1) =>
        -- create the destination directory
        match osMkdir w1.fs dst srcInfo.perm with
        | (some e, fs2) =>
          some (some (LocalError.wrap (LocalError.sys e) "创建目标目录失败"),
            ⟨fs2, w1.ops ++ [SysOp.mkdir dst srcInfo.perm]⟩)
        | (none, fs2) =>
          let w2 : LocalWorld := ⟨fs2, w1.ops ++ [SysOp.mkdir dst srcInfo.perm]⟩
          -- read the source directory
          match osReadDir w2.fs src with
          | Except.error e =>
            some (some (LocalError.wrap (LocalError.sys e) "读取目录失败"),
              w2.log (SysOp.readDir src))
          | Except.ok entries =>
            match LocalBackupImpl.copyEntries (LocalBackupImpl.copyDirectory concurrency fuel)
              src dst entries g (w2.log (SysOp.readDir src)) with
            | none => none
            | some (some err, _, w3) => some (some err, w3)
            | some (none, g1, w3) =>
              -- wait for the group
              match g1.err with
              | some err => some (some (LocalError.wrap err "并发拷贝失败"), w3)
              | none =>
                -- the directory's metadata
                some (LocalBackupImpl.preserveMetadata srcInfo dst w3)

/-- Go `(*LocalBackupImpl).Copy`.  The deferred function removes the
destination when `copyDirectory` or `copyFile` returned an error. -/
def LocalBackupImpl.Copy (concurrency : Int) (fuel : Nat) (src dst : GoString)
    (w : LocalWorld) : Option (Option LocalError × LocalWorld) :=
  match osStat w.fs src with
  | Except.error e => some (some (LocalError.sys e), w.log (SysOp.stat src))
  | Except.ok info =>
    let result :=
      if info.isDir then LocalBackupImpl.copyDirectory concurrency fuel src dst
        (w.log (SysOp.stat src))
      else some (LocalBackupImpl.copyFile src dst (w.log (SysOp.stat src)))
    match result with
    | none => none
    | some (some err, w1) => some (some err, (LocalBackupImpl.RemoveAll dst w1).2)
    | some (none, w1) => some (none, w1)

/-- A filesystem with the directory `/d` (mode 0755, time 10) holding the file
`/d/f` (mode 0644, time 20). -/
def exampleFS : FS where
  nodes := [([], Node.dir 0o755 1), (["d".toList], Node.dir 0o755 10),
    (["d".toList, "f".toList], Node.file 0o644 20 "content".toList)]
  cwd := []
  umask := 0o022
  clock := 100

/-! ## `LocalBackupImpl` as a `Backuper` (`local_backup.go`) -/

/-- Move the node at `src` and everything below it to `dst`, in place of what
is at `dst`. -/
def FS.moveTree (fs : FS) (src dst : Loc) : FS :=
  { fs with nodes := (fs.dropTree dst).nodes.map (fun kv =>
      if src.isPrefixOf kv.1 then (dst ++ kv.1.drop src.length, kv.2) else kv) }

/-- Whether the last element of a path (trailing separators aside) is missing,
`.` or `..`. -/
def lastElemDot (p : GoString) : Bool :=
  match ((splitSep p).filter (fun c => c ≠ [])).getLast? with
  | none => true
  | some c => c == ['.'] || c == ['.', '.']

/-- The system call `rename(2)`. -/
def sysRename (fs : FS) (oldpath newpath : GoString) : Option Errno × FS :=
  match resolve fs oldpath with
  | Except.error e => (some e, fs)
  | Except.ok src =>
    match resolve fs newpath with
    | Except.error e => (some e, fs)
    | Except.ok dst =>
      if lastElemDot oldpath || lastElemDot newpath then (some Errno.EBUSY, fs)
      else
        match fs.lookup src with
        | none => (some Errno.ENOENT, fs)
        | some n =>
          let moved := (((fs.moveTree src dst).touchParent src).touchParent dst).tick
          if src = dst then (none, fs)
          else if src.isPrefixOf dst then (some Errno.EINVAL, fs)
          else if dst.isPrefixOf src then (some Errno.ENOTEMPTY, fs)
          else
            match fs.lookup dst with
            | some (Node.dir _ _) =>
              if !n.isDir then (some Errno.EISDIR, fs)
              else if fs.entries dst ≠ [] then (some Errno.ENOTEMPTY, fs)
              else (none, moved)
            | some (Node.file _ _ _) =>
              if n.isDir then (some Errno.ENOTDIR, fs) else (none, moved)
            | none =>
              match dst with
              | [] => (some Errno.ENOENT, fs)
              | _ :: _ =>
                match fs.lookup dst.dropLast with
                | some (Node.dir _ _) => (none, moved)
                | some (Node.file _ _ _) => (some Errno.ENOTDIR, fs)
                | none => (some Errno.ENOENT, fs)

/-- Go `os.SameFile` on two paths that exist. -/
def sameFile (fs : FS) (p q : GoString) : Bool :=
  match resolve fs p, resolve fs q with
  | Except.ok a, Except.ok b => a == b
  | _, _ => false

/-- Go `os.Rename` (Unix): renaming onto an existing directory is refused with
`EEXIST` unless both names are different names of the same directory; in every
other case the system call decides. -/
def osRename (fs : FS) (oldname newname : GoString) : Option Errno × FS :=
  match osStat fs newname with
  | Except.ok fi =>
    if fi.isDir then
      match osStat fs oldname with
      | Except.error e => (some e, fs)
      | Except.ok _ =>
        if newname = oldname ∨ sameFile fs newname oldname = false then (some Errno.EEXIST, fs)
        else sysRename fs oldname newname
    else sysRename fs oldname newname
  | Except.error _ => sysRename fs oldname newname

/-- Go `(*LocalBackupImpl).Rename`. -/
def LocalBackupImpl.Rename (src dst : GoString) (w : LocalWorld) :
    Option LocalError × LocalWorld :=
  ((osRename w.fs src dst).1.map LocalError.sys,
    ⟨(osRename w.fs src dst).2, w.ops ++ [SysOp.rename src dst]⟩)

/-- What a method of the local `Backuper` reports when it does not return
`nil`: an error value, or no return within the recursion bound. -/
inductive LocalFault where
  | error (err : LocalError)
  | depthExceeded
  deriving DecidableEq, Repr

/-- The four methods of `*LocalBackupImpl` as a `Backuper` on the filesystem.
`concurrency` is the field `Concurrency` of the receiver, `fuel` the bound on
the depth of the recursion of `copyDirectory`. -/
def localBackuper (concurrency : Int) (fuel : Nat) : Backuper FS LocalFault where
  PathExists := fun path fs =>
    ((LocalBackupImpl.PathExists path ⟨fs, []⟩).1, (LocalBackupImpl.PathExists path ⟨fs, []⟩).2.fs)
  Copy := fun src dst fs =>
    match LocalBackupImpl.Copy concurrency fuel src dst ⟨fs, []⟩ with
    | none => (some LocalFault.depthExceeded, fs)
    | some (err, w) => (err.map LocalFault.error, w.fs)
  Rename := fun src dst fs =>
    ((LocalBackupImpl.Rename src dst ⟨fs, []⟩).1.map LocalFault.error,
      (LocalBackupImpl.Rename src dst ⟨fs, []⟩).2.fs)
  RemoveAll := fun path fs =>
    ((LocalBackupImpl.RemoveAll path ⟨fs, []⟩).1.map LocalFault.error,
      (LocalBackupImpl.RemoveAll path ⟨fs, []⟩).2.fs)

/-- Whether the place holds a directory. -/
def FS.isDirAt (fs : FS) (loc : Loc) : Bool :=
  match fs.lookup loc with
  | some (Node.dir _ _) => true
  | _ => false

/-- What a path holds: the node it names, if every directory on the way to it
exists. -/
def localRead (fs : FS) (p : GoString) : Option Node :=
  match resolve fs p with
  | Except.ok loc => fs.lookup loc
  | Except.error _ => none

/-- The directories on the way to the path exist, and the path does not hold a
directory: it holds a regular file or nothing. -/
def fileOrFree (fs : FS) (p : GoString) : Bool :=
  match resolve fs p with
  | Except.ok loc =>
    match fs.lookup loc with
    | some (Node.dir _ _) => false
    | _ => true
  | Except.error _ => false

/-- The states in which a file at `src` can be backed up to `dst`: both paths
can be looked up and neither holds a directory. -/
def localOk (src dst : GoString) (fs : FS) : Prop :=
  fileOrFree fs src = true ∧ fileOrFree fs dst = true

/-- The states in which the place of `src` is free. -/
def localFree (src dst : GoString) (fs : FS) : Prop :=
  localOk src dst fs ∧ localRead fs src = none

/-- Go `os.WriteFile(name, data, perm)`. -/
def osWriteFile (fs : FS) (name data : GoString) (perm : Nat) : Option Errno × FS :=
  match osOpenFileCreateTrunc fs name perm with
  | (Except.error e, fs1) => (some e, fs1)
  | (Except.ok loc, fs1) =>
    match fs1.lookup loc with
    | some (Node.file q _ _) => (none, (fs1.put loc (Node.file q fs1.clock data)).tick)
    | _ => (some Errno.ENOENT, fs1)

/-- The filesystem of the example after the backup of `/d/f` with the suffix
`.bak` and the caller's `os.WriteFile("/d/f", "modified", 0644)`. -/
def overwrittenFS : FS :=
  (osWriteFile (Backup exampleNow (some ⟨[], []⟩) (localBackuper 0 1) "/d/f".toList
    [⟨".bak".toList, true, false⟩] ⟨exampleFS, []⟩).world.state
    "/d/f".toList "modified".toList 0o644).2

/-! ## Properties -/

/-! ## Properties of the backup engine -/

/-- The answer of a recorded `PathExists` call is the answer of the method. -/
theorem callPathExists_fst {σ ε : Type} (b : Backuper σ ε) (p : GoString) (w : World σ) :
    (callPathExists b p w).1 = (b.PathExists p w.state).1 := rfl

/-- A call of `Backup` that reports `performed = true` went through every step:
the source existed, the stale-backup step and the backup step returned no
error, and the results are the backup path, `true` and `nil`. -/
theorem Backup_success_inv {σ ε : Type} (now : Time) (rb : Option (Rollbacker σ ε))
    (b : Backuper σ ε) (srcPath : GoString) (opts : List BackupOption) (w : World σ)
    (hok : (Backup now rb b srcPath opts w).performed = true) :
    ∃ w3 w4, (b.PathExists srcPath w.state).1 = true ∧
      clearStale b (generateBackupPath srcPath (effectiveOption now opts).Suffix)
        (callPathExists b srcPath w).2 = (none, w3) ∧
      performBackup b srcPath (generateBackupPath srcPath (effectiveOption now opts).Suffix)
        (effectiveOption now opts).KeepSource w3 = (none, w4) ∧
      Backup now rb b srcPath opts w =
        ⟨generateBackupPath srcPath (effectiveOption now opts).Suffix, true, none,
          rb.map (fun r => registerRollback r b srcPath
            (generateBackupPath srcPath (effectiveOption now opts).Suffix)
            (effectiveOption now opts).KeepSource), w4⟩ := by
  unfold Backup at hok ⊢
  have hpe : callPathExists b srcPath w =
      ((b.PathExists srcPath w.state).1, (callPathExists b srcPath w).2) := rfl
  rw [hpe] at hok ⊢
  cases h1 : (b.PathExists srcPath w.state).1
  · simp only [h1] at hok
    split at hok <;> simp at hok
  · simp only [h1] at hok ⊢
    rcases hc : clearStale b (generateBackupPath srcPath (effectiveOption now opts).Suffix)
      (callPathExists b srcPath w).2 with ⟨e, w3⟩
    simp only [hc] at hok ⊢
    cases e with
    | some e => simp at hok
    | none =>
      simp only at hok ⊢
      rcases hp : performBackup b srcPath
        (generateBackupPath srcPath (effectiveOption now opts).Suffix)
        (effectiveOption now opts).KeepSource w3 with ⟨e2, w4⟩
      simp only [hp] at hok ⊢
      cases e2 with
      | some e2 => simp at hok
      | none =>
        refine ⟨w3, w4, by simp, by simp, hp, ?_⟩
        cases rb <;> simp [hp]

/-- C4. When `PathExists(srcPath)` is false, `Backup` returns `("", false, nil)`
if `SkipIfNotExist` is set and `("", false, err)` with a non-nil error if not;
the only method it calls is `PathExists(srcPath)` (no `Copy`, `Rename` or
`RemoveAll`) and the registry is left as it was. -/
theorem Backup_source_missing {σ ε : Type} (now : Time) (rb : Option (Rollbacker σ ε))
    (b : Backuper σ ε) (srcPath : GoString) (opts : List BackupOption) (w : World σ)
    (hmissing : (b.PathExists srcPath w.state).1 = false) :
    (Backup now rb b srcPath opts w).backupPath = [] ∧
    (Backup now rb b srcPath opts w).performed = false ∧
    ((effectiveOption now opts).SkipIfNotExist = true →
      (Backup now rb b srcPath opts w).err = none) ∧
    ((effectiveOption now opts).SkipIfNotExist = false →
      (Backup now rb b srcPath opts w).err ≠ none) ∧
    (Backup now rb b srcPath opts w).registry = rb ∧
    (Backup now rb b srcPath opts w).world.calls = w.calls ++ [Call.pathExists srcPath] := by
  have h1 : callPathExists b srcPath w =
      (false, ⟨(b.PathExists srcPath w.state).2, w.calls ++ [Call.pathExists srcPath]⟩) := by
    simp [callPathExists, hmissing]
  unfold Backup
  simp only [h1]
  cases hs : (effectiveOption now opts).SkipIfNotExist <;> simp

/-- C6. When the source exists, the stale-backup step passed and the backup step
fails (`Rename` for `KeepSource = true`, `Copy` for `KeepSource = false`),
`Backup` returns `("", false, err)` with the wrapped, non-nil error and leaves
the registry unchanged: nothing is registered. -/
theorem Backup_write_failure {σ ε : Type} (now : Time) (rb : Option (Rollbacker σ ε))
    (b : Backuper σ ε) (srcPath : GoString) (opts : List BackupOption) (w w3 : World σ) (e : ε)
    (hexists : (b.PathExists srcPath w.state).1 = true)
    (hclear : clearStale b (generateBackupPath srcPath (effectiveOption now opts).Suffix)
      (callPathExists b srcPath w).2 = (none, w3))
    (hfail : (if (effectiveOption now opts).KeepSource
      then b.Rename srcPath (generateBackupPath srcPath (effectiveOption now opts).Suffix) w3.state
      else b.Copy srcPath (generateBackupPath srcPath (effectiveOption now opts).Suffix) w3.state).1
        = some e) :
    (Backup now rb b srcPath opts w).backupPath = [] ∧
    (Backup now rb b srcPath opts w).performed = false ∧
    (Backup now rb b srcPath opts w).err = some (GoError.wrapf (GoError.ofBackuper e)
      "文件备份失败: %s -> %s"
      [srcPath, generateBackupPath srcPath (effectiveOption now opts).Suffix]) ∧
    (Backup now rb b srcPath opts w).registry = rb := by
  have h1 : callPathExists b srcPath w = (true, (callPathExists b srcPath w).2) := by
    simp [callPathExists, hexists]
  unfold Backup
  rw [h1]
  simp only [hclear]
  cases hk : (effectiveOption now opts).KeepSource
  · simp only [hk, Bool.false_eq_true, if_false] at hfail
    simp [performBackup, callCopy, hfail]
  · simp only [hk, if_true] at hfail
    simp [performBackup, callRename, hfail]

/-- C4 at a missing file of the in-memory store, with `SkipIfNotExist = false`. -/
theorem Backup_source_missing_witness :
    (memBackuper.PathExists "/tmp/nonexist.txt".toList exampleStore).1 = false ∧
    (Backup exampleNow (some ⟨[], []⟩) memBackuper "/tmp/nonexist.txt".toList
      [⟨[], false, false⟩] ⟨exampleStore, []⟩).performed = false ∧
    (Backup exampleNow (some ⟨[], []⟩) memBackuper "/tmp/nonexist.txt".toList
      [⟨[], false, false⟩] ⟨exampleStore, []⟩).err ≠ none ∧
    (Backup exampleNow (some ⟨[], []⟩) memBackuper "/tmp/nonexist.txt".toList
      [⟨[], false, false⟩] ⟨exampleStore, []⟩).world.calls =
        [Call.pathExists "/tmp/nonexist.txt".toList] :=
  have h := Backup_source_missing exampleNow (some ⟨[], []⟩) memBackuper
    "/tmp/nonexist.txt".toList [⟨[], false, false⟩] ⟨exampleStore, []⟩ (by decide)
  ⟨by decide, h.2.1, h.2.2.2.1 rfl, h.2.2.2.2.2⟩

/-- C6 on the run of `TestBackupErrorHandling`: the injected `Copy` failure. -/
theorem Backup_write_failure_witness :
    (Backup exampleNow (some ⟨[], []⟩) (errorInjectBackup "Copy") "/fake/path".toList []
      ⟨(), []⟩).err = some (GoError.wrapf (GoError.ofBackuper "模拟拷贝失败")
        "文件备份失败: %s -> %s"
        ["/fake/path".toList, "/fake/path.backup.20230102030405".toList]) ∧
    (Backup exampleNow (some ⟨[], []⟩) (errorInjectBackup "Copy") "/fake/path".toList []
      ⟨(), []⟩).performed = false :=
  have h := Backup_write_failure exampleNow (some ⟨[], []⟩) (errorInjectBackup "Copy")
    "/fake/path".toList [] ⟨(), []⟩
    ⟨(), [Call.pathExists "/fake/path".toList,
      Call.pathExists "/fake/path.backup.20230102030405".toList]⟩ "模拟拷贝失败"
    (by decide) (by rfl) (by decide)
  ⟨h.2.2.1, h.2.1⟩

/-- After a stale-backup step without error the state is still one the laws
speak about, nothing is held at the backup path, and the source path holds
what it held or nothing. -/
theorem clearStale_state {σ ε κ : Type} {b : Backuper σ ε} {read : σ → GoString → Option κ}
    {ok free : σ → Prop} {nested : Prop} {src bp : GoString}
    (fs : FsLike b read ok free nested src bp) (w w3 : World σ) (hw : ok w.state)
    (h : clearStale b bp w = (none, w3)) :
    ok w3.state ∧ read w3.state bp = none ∧
    (read w3.state src = read w.state src ∨ read w3.state src = none) := by
  unfold clearStale at h
  have hq := fs.exists_dst w.state hw
  simp only [callPathExists, callRemoveAll, hq] at h
  cases hx : (read w.state bp).isSome
  · simp only [hx] at h
    have h3 : w3.state = w.state := by
      have := congrArg (fun x => x.2.state) h
      simpa using this.symm
    rw [h3]
    exact ⟨hw, by simpa using hx, Or.inl rfl⟩
  · simp only [hx] at h
    cases hr : (b.RemoveAll bp w.state).1 with
    | some e => simp [hr] at h
    | none =>
      simp only [hr] at h
      have h3 : w3.state = (b.RemoveAll bp w.state).2 := by
        have := congrArg (fun x => x.2.state) h
        simpa using this.symm
      rw [h3]
      exact fs.removeAll_dst w.state hw hr

/-- C1. Round trip.  For a `Backuper` that behaves like a filesystem on the
source path and the backup path (the laws `FsLike`, which speak about these two
paths in the states `ok`), a state `ok` in which the source path holds `c0`,
and any options with `KeepSource = false`: if `Backup` reports
`performed = true`, then it returned no error and registered the undo action,
and on every later world `t` in a state `ok` in which the caller has
overwritten the source path (it still holds something, and the backup path
holds what `Backup` left there) the undo action returns no error, the source
path holds exactly the content `c0` it held before `Backup`, and
`PathExists(backupPath)` is false. -/
theorem backup_undo_round_trip {σ ε κ : Type} {b : Backuper σ ε}
    {read : σ → GoString → Option κ} {ok free : σ → Prop} {nested : Prop}
    (now : Time) (r : Rollbacker σ ε) (srcPath : GoString) (opts : List BackupOption)
    (w : World σ) (c0 : κ)
    (fs : FsLike b read ok free nested srcPath
      (generateBackupPath srcPath (effectiveOption now opts).Suffix))
    (hw : ok w.state)
    (hsrc : read w.state srcPath = some c0)
    (hkeep : (effectiveOption now opts).KeepSource = false)
    (hok : (Backup now (some r) b srcPath opts w).performed = true)
    (t : World σ)
    (ht : ok t.state)
    (hover : (read t.state srcPath).isSome = true)
    (hbackup : read t.state (Backup now (some r) b srcPath opts w).backupPath =
      read (Backup now (some r) b srcPath opts w).world.state
        (Backup now (some r) b srcPath opts w).backupPath) :
    (Backup now (some r) b srcPath opts w).err = none ∧
    ∃ r', (Backup now (some r) b srcPath opts w).registry = some r' ∧
      r'.undo = restoreAction b srcPath (Backup now (some r) b srcPath opts w).backupPath
        :: r.undo ∧
      (restoreAction b srcPath (Backup now (some r) b srcPath opts w).backupPath t).1 = none ∧
      read (restoreAction b srcPath (Backup now (some r) b srcPath opts w).backupPath t).2.state
        srcPath = some c0 ∧
      (b.PathExists (Backup now (some r) b srcPath opts w).backupPath
        (restoreAction b srcPath
          (Backup now (some r) b srcPath opts w).backupPath t).2.state).1 = false := by
  obtain ⟨w3, w4, _, hc, hp, hB⟩ := Backup_success_inv now (some r) b srcPath opts w hok
  rw [hB] at hbackup
  rw [hB]
  simp only [Option.map_some', Option.some.injEq, exists_eq_left']
  simp only at hbackup
  generalize generateBackupPath srcPath (effectiveOption now opts).Suffix = bp at *
  -- the copy step
  simp only [performBackup, hkeep, Bool.false_eq_true, if_false, callCopy] at hp
  cases hcp : (b.Copy srcPath bp w3.state).1 with
  | some e => simp [hcp] at hp
  | none =>
    simp only [hcp] at hp
    have hw4 : w4.state = (b.Copy srcPath bp w3.state).2 := by
      have := congrArg (fun x => x.2.state) hp
      simpa using this.symm
    have hw1 : (callPathExists b srcPath w).2.state = w.state := by
      simp [callPathExists, fs.exists_src w.state hw]
    obtain ⟨hok3, habsent, hst⟩ := clearStale_state fs _ w3 (by rw [hw1]; exact hw) hc
    rw [hw1] at hst
    obtain ⟨_, hex3, hnn, hd⟩ := fs.copy_post w3.state hok3 habsent hcp
    -- the source was not touched by the stale-backup step
    have hs3 : read w3.state srcPath = some c0 := by
      rcases hst with h | h
      · rw [h]; exact hsrc
      · rw [h] at hex3; exact absurd hex3 (by simp)
    have hbpt : read t.state bp = some c0 := by rw [hbackup, hw4, hd, hs3]
    -- the undo action
    obtain ⟨hrm, hfree, hr2⟩ := fs.removeAll_src t.state ht hover
    have hr2 : read (b.RemoveAll srcPath t.state).2 bp = some c0 := by
      rw [hr2 hnn]; exact hbpt
    obtain ⟨hren, hok5, hp1, hp2⟩ :=
      fs.rename_back (b.RemoveAll srcPath t.state).2 hfree (by rw [hr2]; rfl)
    have hrun : restoreAction b srcPath bp t =
        (none, ⟨(b.Rename bp srcPath (b.RemoveAll srcPath t.state).2).2,
          t.calls ++ [Call.pathExists srcPath] ++ [Call.removeAll srcPath] ++
            [Call.rename bp srcPath]⟩) := by
      simp [restoreAction, callPathExists, callRemoveAll, callRename, fs.exists_src t.state ht,
        hover, hrm, hren]
    refine ⟨trivial, by simp [registerRollback, hkeep, Rollbacker.PushFront,
      Rollbacker.PushDefer], ?_, ?_, ?_⟩
    · rw [hrun]
    · rw [hrun]; simp only; rw [hp1, hr2]
    · rw [hrun]; simp only; rw [fs.exists_dst _ hok5, hp2]; rfl

/-- Nothing is held under an erased path. -/
theorem Store.lookup_erase_self (s : Store) (p : GoString) : (s.erase p).lookup p = none := by
  induction s with
  | nil => rfl
  | cons kv s ih =>
    obtain ⟨k, v⟩ := kv
    by_cases h : k = p
    · simp [Store.erase, List.filter_cons, h] at ih ⊢
      exact ih
    · have hk : (p == k) = false := by simpa using fun h' => h h'.symm
      simp [Store.erase, List.filter_cons, h, List.lookup_cons, hk] at ih ⊢
      exact ih

/-- C7. After a `Backup` with a registry that reports `performed = true`, the
deferred action registered last is the cleanup of the backup path.  For a
`Backuper` whose `PathExists` is a query and whose successful `RemoveAll`
leaves the path absent, on every later world: if `RemoveAll` succeeds there,
the action returns no error and leaves `PathExists(backupPath)` false; and if
the backup path no longer exists the action returns `nil`, changes nothing and
calls only `PathExists` (neither `RemoveAll` nor `Rename`). -/
theorem deferred_cleanup_removes_backup {σ ε : Type} (now : Time) (r : Rollbacker σ ε)
    (b : Backuper σ ε) (srcPath : GoString) (opts : List BackupOption) (w : World σ)
    (hquery : ∀ p s, (b.PathExists p s).2 = s)
    (hremoved : ∀ p s, (b.RemoveAll p s).1 = none →
      (b.PathExists p (b.RemoveAll p s).2).1 = false)
    (hok : (Backup now (some r) b srcPath opts w).performed = true) :
    ∃ r', (Backup now (some r) b srcPath opts w).registry = some r' ∧
      r'.deferred =
        r.deferred ++ [cleanupAction b (Backup now (some r) b srcPath opts w).backupPath] ∧
      ∀ t : World σ,
        ((b.RemoveAll (Backup now (some r) b srcPath opts w).backupPath t.state).1 = none →
          (cleanupAction b (Backup now (some r) b srcPath opts w).backupPath t).1 = none ∧
          (b.PathExists (Backup now (some r) b srcPath opts w).backupPath
            (cleanupAction b (Backup now (some r) b srcPath opts w).backupPath t).2.state).1
              = false) ∧
        ((b.PathExists (Backup now (some r) b srcPath opts w).backupPath t.state).1 = false →
          cleanupAction b (Backup now (some r) b srcPath opts w).backupPath t =
            (none, ⟨t.state, t.calls ++
              [Call.pathExists (Backup now (some r) b srcPath opts w).backupPath]⟩)) := by
  obtain ⟨w3, w4, _, _, _, hB⟩ := Backup_success_inv now (some r) b srcPath opts w hok
  rw [hB]
  simp only [Option.map_some', Option.some.injEq, exists_eq_left']
  generalize generateBackupPath srcPath (effectiveOption now opts).Suffix = bp
  refine ⟨?_, ?_⟩
  · unfold registerRollback
    cases (effectiveOption now opts).KeepSource <;> simp [Rollbacker.PushFront,
      Rollbacker.PushDefer]
  · intro t
    have hno : (b.PathExists bp t.state).1 = false →
        cleanupAction b bp t = (none, ⟨t.state, t.calls ++ [Call.pathExists bp]⟩) := by
      intro h
      simp [cleanupAction, callPathExists, h, hquery]
    refine ⟨?_, hno⟩
    intro hrm
    cases hx : (b.PathExists bp t.state).1
    · rw [hno hx]
      exact ⟨rfl, hx⟩
    · have hrun : cleanupAction b bp t =
          (none, ⟨(b.RemoveAll bp t.state).2,
            t.calls ++ [Call.pathExists bp] ++ [Call.removeAll bp]⟩) := by
        simp [cleanupAction, callPathExists, callRemoveAll, hx, hquery, hrm]
      rw [hrun]
      exact ⟨rfl, hremoved bp t.state hrm⟩

/-- C7 on the in-memory store, with the backup still present. -/
theorem deferred_cleanup_removes_backup_witness :
    (cleanupAction memBackuper "/data/file.txt.bak".toList ⟨overwrittenStore, []⟩).1 = none ∧
    (memBackuper.PathExists "/data/file.txt.bak".toList
      (cleanupAction memBackuper "/data/file.txt.bak".toList
        ⟨overwrittenStore, []⟩).2.state).1 = false := by
  have h := deferred_cleanup_removes_backup exampleNow ⟨[], []⟩ memBackuper
    "/data/file.txt".toList [⟨".bak".toList, true, false⟩] ⟨exampleStore, []⟩
    (fun _ _ => rfl)
    (fun p s _ => by
      have := Store.lookup_erase_self s p
      simp only [memBackuper, this, Option.isSome_none])
    (by decide)
  have hbp : (Backup exampleNow (some ⟨[], []⟩) memBackuper "/data/file.txt".toList
      [⟨".bak".toList, true, false⟩] ⟨exampleStore, []⟩).backupPath =
      "/data/file.txt.bak".toList := by decide
  rw [hbp] at h
  obtain ⟨_, _, _, h3⟩ := h
  exact (h3 ⟨overwrittenStore, []⟩).1 rfl

/-- C5 fails on the code.  With `KeepSource = true` the engine renames the source
to the backup path: the call reports `performed = true`, its only mutating call
is `Rename(srcPath, backupPath)`, and afterwards nothing is held at the source
path. -/
theorem keepSource_true_moves_source_away :
    (Backup exampleNow (some ⟨[], []⟩) memBackuper "/data/file.txt".toList
      [⟨".bak".toList, true, true⟩] ⟨exampleStore, []⟩).performed = true ∧
    (Backup exampleNow (some ⟨[], []⟩) memBackuper "/data/file.txt".toList
      [⟨".bak".toList, true, true⟩] ⟨exampleStore, []⟩).world.calls =
      [Call.pathExists "/data/file.txt".toList, Call.pathExists "/data/file.txt.bak".toList,
        Call.rename "/data/file.txt".toList "/data/file.txt.bak".toList] ∧
    memRead (Backup exampleNow (some ⟨[], []⟩) memBackuper "/data/file.txt".toList
      [⟨".bak".toList, true, true⟩] ⟨exampleStore, []⟩).world.state "/data/file.txt".toList
      = none := by
  decide

/-- C10 fails on the code.  Options passed without a `Suffix` replace the default
suffix by the empty one; for the clean path `/data/file.txt` the backup path is
then the source path itself, and `Backup` calls `RemoveAll` on it: the source is
gone after the call. -/
theorem empty_suffix_removes_source :
    generateBackupPath "/data/file.txt".toList [] = "/data/file.txt".toList ∧
    (Backup exampleNow (some ⟨[], []⟩) memBackuper "/data/file.txt".toList
      [⟨[], true, false⟩] ⟨exampleStore, []⟩).world.calls =
      [Call.pathExists "/data/file.txt".toList, Call.pathExists "/data/file.txt".toList,
        Call.removeAll "/data/file.txt".toList,
        Call.copy "/data/file.txt".toList "/data/file.txt".toList] ∧
    memRead (Backup exampleNow (some ⟨[], []⟩) memBackuper "/data/file.txt".toList
      [⟨[], true, false⟩] ⟨exampleStore, []⟩).world.state "/data/file.txt".toList = none := by
  decide

/-! ## The loop of `filepath.Clean` -/

/-- Dropping the bytes of an element does not lengthen the path. -/
theorem dropWhile_notSep_length_le (cs : GoString) :
    (cs.dropWhile (fun x => !isPathSeparator x)).length ≤ cs.length := by
  induction cs with
  | nil => simp
  | cons c cs ih =>
    rw [List.dropWhile_cons]
    split
    · exact Nat.le_succ_of_le ih
    · exact Nat.le_refl _

/-- The loop does not depend on the fuel once there is a round for every byte
left. -/
theorem cleanLoop_fuel (rooted : Bool) (f1 f2 : Nat) (rest out : GoString) (dotdot : Nat)
    (h1 : rest.length ≤ f1) (h2 : rest.length ≤ f2) :
    cleanLoop rooted f1 rest out dotdot = cleanLoop rooted f2 rest out dotdot := by
  induction f1 generalizing f2 rest out dotdot with
  | zero =>
    have : rest = [] := List.eq_nil_of_length_eq_zero (Nat.le_zero.mp h1)
    subst this
    cases f2 <;> simp [cleanLoop]
  | succ f1 ih =>
    cases rest with
    | nil => cases f2 <;> simp [cleanLoop]
    | cons c cs =>
      cases f2 with
      | zero => simp at h2
      | succ f2 =>
        have hcs1 : cs.length ≤ f1 := by simpa using h1
        have hcs2 : cs.length ≤ f2 := by simpa using h2
        have ht1 : cs.tail.length ≤ f1 := by rw [List.length_tail]; omega
        have ht2 : cs.tail.length ≤ f2 := by rw [List.length_tail]; omega
        have hd : ¬ isPathSeparator c = true →
            ((c :: cs).dropWhile (fun x => !isPathSeparator x)).length ≤ cs.length := by
          intro hsep
          rw [List.dropWhile_cons]
          simp only [hsep, Bool.not_false, if_true]
          exact dropWhile_notSep_length_le cs
        simp only [cleanLoop]
        split_ifs <;>
          first
          | exact ih f2 _ _ _ hcs1 hcs2
          | exact ih f2 _ _ _ ht1 ht2
          | exact ih f2 _ _ _ (Nat.le_trans (hd (by assumption)) hcs1)
              (Nat.le_trans (hd (by assumption)) hcs2)

/-- At the end of the path the loop returns the buffer. -/
theorem cleanRun_nil (rooted : Bool) (out : GoString) (dotdot : Nat) :
    cleanRun rooted [] out dotdot = out := by
  simp [cleanRun, cleanLoop]

/-- A separator is skipped (empty path element). -/
theorem cleanRun_sep (rooted : Bool) (cs out : GoString) (dotdot : Nat) :
    cleanRun rooted ('/' :: cs) out dotdot = cleanRun rooted cs out dotdot := by
  simp [cleanRun, cleanLoop, isPathSeparator]

/-- The loop with enough fuel is the loop with exactly the fuel it needs. -/
theorem cleanLoop_eq_run (rooted : Bool) (f : Nat) (rest out : GoString) (dotdot : Nat)
    (h : rest.length ≤ f) :
    cleanLoop rooted f rest out dotdot = cleanRun rooted rest out dotdot :=
  cleanLoop_fuel rooted f rest.length rest out dotdot h (Nat.le_refl _)

/-- The end of the path is a boundary. -/
theorem Boundary.nil : Boundary [] := Or.inl rfl

/-- A separator is a boundary. -/
theorem Boundary.sep (t : GoString) : Boundary ('/' :: t) := Or.inr ⟨t, rfl⟩

/-- At a boundary the test `r == n || os.IsPathSeparator(path[r])` of the loop
holds. -/
theorem Boundary.test {t : GoString} (h : Boundary t) :
    (t.isEmpty || isPathSeparator (t.headD '/')) = true := by
  rcases h with rfl | ⟨t', rfl⟩ <;> simp [isPathSeparator]

/-- One round of the loop, with the fuel put aside. -/
theorem cleanRun_cons (rooted : Bool) (c : Char) (cs out : GoString) (dotdot : Nat) :
    cleanRun rooted (c :: cs) out dotdot =
      if isPathSeparator c then cleanRun rooted cs out dotdot
      else if c == '.' && (cs.isEmpty || isPathSeparator (cs.headD '/')) then
        cleanRun rooted cs out dotdot
      else if c == '.' && cs.head? == some '.' &&
          (cs.tail.isEmpty || isPathSeparator (cs.tail.headD '/')) then
        if out.length > dotdot then cleanRun rooted cs.tail (backtrack out dotdot) dotdot
        else if !rooted then
          cleanRun rooted cs.tail ((if out.length > 0 then out ++ ['/'] else out) ++ ['.', '.'])
            ((if out.length > 0 then out ++ ['/'] else out) ++ ['.', '.']).length
        else cleanRun rooted cs.tail out dotdot
      else
        cleanRun rooted ((c :: cs).dropWhile (fun x => !isPathSeparator x))
          ((if (rooted && out.length != 1) || (!rooted && out.length != 0) then out ++ ['/']
            else out) ++ (c :: cs).takeWhile (fun x => !isPathSeparator x)) dotdot := by
  have ht : cs.tail.length ≤ cs.length := by rw [List.length_tail]; omega
  have hd : ¬ isPathSeparator c = true →
      ((c :: cs).dropWhile (fun x => !isPathSeparator x)).length ≤ cs.length := by
    intro hsep
    rw [List.dropWhile_cons]
    simp only [hsep, Bool.not_false, if_true]
    exact dropWhile_notSep_length_le cs
  simp only [cleanRun, List.length_cons, cleanLoop]
  split_ifs <;>
    first
    | rfl
    | exact cleanLoop_eq_run rooted _ _ _ _ ht
    | exact cleanLoop_eq_run rooted _ _ _ _ (hd (by assumption))

/-- A `.` element is skipped. -/
theorem cleanRun_dot (rooted : Bool) (t out : GoString) (dotdot : Nat) (ht : Boundary t) :
    cleanRun rooted ('.' :: t) out dotdot = cleanRun rooted t out dotdot := by
  have h := ht.test
  have c2 : ('.' == '.' && (t.isEmpty || isPathSeparator (t.headD '/'))) = true := by
    rw [h]; rfl
  rw [cleanRun_cons, if_neg (by decide), if_pos c2]

/-- A `..` element backtracks when the buffer holds a name, is written out in
a relative path, and is dropped at the root. -/
theorem cleanRun_dotdot (rooted : Bool) (t out : GoString) (dotdot : Nat) (ht : Boundary t) :
    cleanRun rooted ('.' :: '.' :: t) out dotdot =
      if out.length > dotdot then cleanRun rooted t (backtrack out dotdot) dotdot
      else if !rooted then
        cleanRun rooted t ((if out.length > 0 then out ++ ['/'] else out) ++ ['.', '.'])
          ((if out.length > 0 then out ++ ['/'] else out) ++ ['.', '.']).length
      else cleanRun rooted t out dotdot := by
  have h := ht.test
  have c2 : ¬ ('.' == '.' && (('.' :: t).isEmpty || isPathSeparator (('.' :: t).headD '/')))
      = true := by
    show ¬ ('.' == '.' && (false || isPathSeparator '.')) = true
    decide
  have c3 : ('.' == '.' && ('.' :: t).head? == some '.' &&
      (('.' :: t).tail.isEmpty || isPathSeparator (('.' :: t).tail.headD '/'))) = true := by
    show ('.' == '.' && some '.' == some '.' &&
      (t.isEmpty || isPathSeparator (t.headD '/'))) = true
    rw [h]; rfl
  rw [cleanRun_cons, if_neg (by decide), if_neg c2, if_pos c3]
  rfl

/-- The inner copy loop takes exactly the element at the head of the path. -/
theorem takeWhile_append_boundary (e t : GoString) (he : '/' ∉ e) (ht : Boundary t) :
    (e ++ t).takeWhile (fun x => !isPathSeparator x) = e ∧
    (e ++ t).dropWhile (fun x => !isPathSeparator x) = t := by
  induction e with
  | nil =>
    rcases ht with rfl | ⟨t', rfl⟩ <;> simp [isPathSeparator]
  | cons c e ih =>
    have hc : isPathSeparator c = false := by
      have : c ≠ '/' := fun h => he (by simp [h])
      simpa [isPathSeparator] using this
    have he' : '/' ∉ e := fun h => he (List.mem_cons_of_mem _ h)
    obtain ⟨h1, h2⟩ := ih he'
    constructor
    · rw [List.cons_append, List.takeWhile_cons]
      simp only [hc, Bool.not_false, if_true, h1]
    · rw [List.cons_append, List.dropWhile_cons]
      simp only [hc, Bool.not_false, if_true, h2]

/-- A proper element is written to the buffer, behind a separator if the
buffer already holds an element. -/
theorem cleanRun_elem (rooted : Bool) (e t out : GoString) (dotdot : Nat)
    (he : ProperElem e) (ht : Boundary t) :
    cleanRun rooted (e ++ t) out dotdot =
      cleanRun rooted t
        ((if (rooted && out.length != 1) || (!rooted && out.length != 0) then out ++ ['/']
          else out) ++ e) dotdot := by
  obtain ⟨hne, hsep, hdot, hdd⟩ := he
  obtain ⟨htw, hdw⟩ := takeWhile_append_boundary e t hsep ht
  cases e with
  | nil => exact absurd rfl hne
  | cons c e' =>
    have hc : c ≠ '/' := fun h => hsep (by simp [h])
    have hc1 : ¬ isPathSeparator c = true := by simpa [isPathSeparator] using hc
    have he' : '/' ∉ e' := fun h => hsep (List.mem_cons_of_mem _ h)
    have c2 : ¬ (c == '.' && ((e' ++ t).isEmpty || isPathSeparator ((e' ++ t).headD '/')))
        = true := by
      by_cases hcd : c = '.'
      · subst hcd
        cases e' with
        | nil => exact absurd rfl hdot
        | cons d e'' =>
          have hd : d ≠ '/' := fun h => he' (by simp [h])
          simp [isPathSeparator, hd]
      · simp [hcd]
    have c3 : ¬ (c == '.' && (e' ++ t).head? == some '.' &&
        ((e' ++ t).tail.isEmpty || isPathSeparator ((e' ++ t).tail.headD '/'))) = true := by
      by_cases hcd : c = '.'
      · subst hcd
        cases e' with
        | nil => exact absurd rfl hdot
        | cons d e'' =>
          by_cases hdd' : d = '.'
          · subst hdd'
            cases e'' with
            | nil => exact absurd rfl hdd
            | cons x e3 =>
              have hx : x ≠ '/' := fun h => he' (by simp [h])
              simp [isPathSeparator, hx]
          · simp [hdd']
      · simp [hcd]
    rw [List.cons_append, cleanRun_cons, if_neg hc1, if_neg c2, if_neg c3]
    rw [← List.cons_append, htw, hdw]

/-- The segments of a concatenation. -/
theorem segs_append (a b : List GoString) : segs (a ++ b) = segs a ++ segs b := by
  induction a with
  | nil => rfl
  | cons e es ih => simp [segs, ih]

/-- Segments of a non-empty list of elements are not empty. -/
theorem segs_ne_nil {els : List GoString} (h : els ≠ []) : segs els ≠ [] := by
  cases els with
  | nil => exact absurd rfl h
  | cons e es => simp [segs]

/-- The backtrack loop runs down over bytes that are no separators and stops
at `n` when `n` is the `dotdot` mark or holds a separator. -/
theorem backtrackIdx_stop (buf : GoString) (dotdot n : Nat) (hdd : dotdot ≤ n)
    (hstop : n ≤ dotdot ∨ buf.getD n '/' = '/') (j : Nat)
    (hrun : ∀ i, n < i → i ≤ n + j → buf.getD i '/' ≠ '/') :
    backtrackIdx buf dotdot (n + j) = n := by
  induction j with
  | zero =>
    cases n with
    | zero => rfl
    | succ m =>
      show backtrackIdx buf dotdot (m + 1) = m + 1
      unfold backtrackIdx
      rw [if_neg]
      rcases hstop with h | h
      · simp; omega
      · rw [h]; simp [isPathSeparator]
  | succ j ih =>
    show backtrackIdx buf dotdot (n + j + 1) = n
    unfold backtrackIdx
    have h1 := hrun (n + j + 1) (by omega) (by omega)
    rw [if_pos]
    · exact ih (fun i hi1 hi2 => hrun i hi1 (by omega))
    · simp only [isPathSeparator, Bool.and_eq_true, decide_eq_true_eq, Bool.not_eq_true',
        beq_eq_false_iff_ne, ne_eq]
      exact ⟨by omega, h1⟩

/-- Behind `p`, the bytes of an element without separator are no separators. -/
theorem getD_append_right_of_lt (p e : GoString) (i : Nat) (h1 : p.length ≤ i)
    (h2 : i < p.length + e.length) (he : '/' ∉ e) : (p ++ e).getD i '/' ≠ '/' := by
  rw [List.getD_eq_getElem?_getD, List.getElem?_append_right h1]
  have hlt : i - p.length < e.length := by omega
  rw [List.getElem?_eq_getElem hlt]
  simp only [Option.getD_some]
  intro h
  exact he (h ▸ List.getElem_mem hlt)

/-- Backtracking over the only name behind the `dotdot` mark stops at the
mark. -/
theorem backtrack_len (p e : GoString) (dotdot : Nat) (he : '/' ∉ e) (hne : e ≠ [])
    (hdd : p.length = dotdot) : backtrack (p ++ e) dotdot = p := by
  have hl : 0 < e.length := List.length_pos.mpr hne
  unfold backtrack
  have hw : (p ++ e).length - 1 = p.length + (e.length - 1) := by
    rw [List.length_append]; omega
  rw [hw, backtrackIdx_stop (p ++ e) dotdot p.length (by omega) (Or.inl (by omega))]
  · simp
  · intro i hi1 hi2
    exact getD_append_right_of_lt p e i (by omega) (by omega) he

/-- Backtracking over the last name stops at the separator in front of it and
drops that too. -/
theorem backtrack_sep (p e : GoString) (dotdot : Nat) (he : '/' ∉ e)
    (hdd : dotdot ≤ p.length) : backtrack (p ++ '/' :: e) dotdot = p := by
  unfold backtrack
  have hw : (p ++ '/' :: e).length - 1 = p.length + e.length := by
    rw [List.length_append, List.length_cons]; omega
  rw [hw, backtrackIdx_stop (p ++ '/' :: e) dotdot p.length hdd (Or.inr (by
    rw [List.getD_eq_getElem?_getD, List.getElem?_append_right (Nat.le_refl _)]
    simp))]
  · simp
  · intro i hi1 hi2
    have : p ++ '/' :: e = (p ++ ['/']) ++ e := by simp
    rw [this]
    exact getD_append_right_of_lt (p ++ ['/']) e i (by simp; omega) (by simp; omega) he

/-- The length of the leading separator. -/
theorem rootLead_length (rooted : Bool) :
    (rootLead rooted).length = if rooted then 1 else 0 := by
  cases rooted <;> rfl

/-- More elements do not shorten the buffer. -/
theorem render_length_mono (rooted : Bool) (a b : List GoString) :
    (render rooted a).length ≤ (render rooted (a ++ b)).length := by
  simp only [render, List.length_append, segs_append, List.length_tail]
  omega

/-- Writing one more element: a separator if the buffer already holds an
element, then the element. -/
theorem render_snoc (rooted : Bool) (els : List GoString) (e : GoString)
    (hne : ∀ x ∈ els, x ≠ []) :
    render rooted (els ++ [e]) =
      (if (rooted && (render rooted els).length != 1) ||
          (!rooted && (render rooted els).length != 0)
        then render rooted els ++ ['/'] else render rooted els) ++ e := by
  cases els with
  | nil => cases rooted <;> simp [render, segs, rootLead]
  | cons x xs =>
    have hx : x ≠ [] := hne x (List.mem_cons_self _ _)
    have hlen : 0 < x.length := List.length_pos.mpr hx
    have hc : ((rooted && (render rooted (x :: xs)).length != 1) ||
        (!rooted && (render rooted (x :: xs)).length != 0)) = true := by
      cases rooted <;> simp [render, segs, rootLead] <;> intro h <;> simp [h] at hx
    rw [if_pos hc]
    simp [render, segs, segs_append]

/-- A `..` element is not empty. -/
theorem dotdots_ne_nil (k : Nat) : ∀ x ∈ dotdots k, x ≠ [] := by
  intro x hx
  rw [dotdots, List.mem_replicate] at hx
  rw [hx.2]
  simp

/-- No element of a state is empty. -/
theorem elems_ne_nil (k : Nat) (names : List GoString) (hn : ∀ e ∈ names, ProperElem e) :
    ∀ x ∈ dotdots k ++ names, x ≠ [] := by
  intro x hx
  rcases List.mem_append.mp hx with h | h
  · exact dotdots_ne_nil k x h
  · exact (hn x h).1

/-- The loop starts in a state: the leading separator of a rooted path, else
the empty buffer. -/
theorem CState.init (rooted : Bool) : CState rooted (rootLead rooted)
    (rootLead rooted).length :=
  ⟨0, [], fun _ => rfl, by simp, by simp [render, dotdots, segs],
    by simp [render, dotdots, segs]⟩

/-- Writing a proper element leads to a state. -/
theorem CState.elem {rooted : Bool} {out : GoString} {dotdot : Nat}
    (h : CState rooted out dotdot) {e : GoString} (he : ProperElem e) :
    CState rooted ((if (rooted && out.length != 1) || (!rooted && out.length != 0)
      then out ++ ['/'] else out) ++ e) dotdot := by
  obtain ⟨k, names, hk, hn, rfl, rfl⟩ := h
  refine ⟨k, names ++ [e], hk, ?_, ?_, rfl⟩
  · intro x hx
    rcases List.mem_append.mp hx with h | h
    · exact hn x h
    · rw [List.mem_singleton.mp h]; exact he
  · rw [← List.append_assoc, render_snoc rooted _ e (elems_ne_nil k names hn)]

/-- The buffer reaches beyond the `dotdot` mark exactly when it holds a name. -/
theorem CState.length_gt {rooted : Bool} {out : GoString} {dotdot : Nat}
    {k : Nat} {names : List GoString} (hn : ∀ e ∈ names, ProperElem e)
    (hout : out = render rooted (dotdots k ++ names))
    (hdd : dotdot = (render rooted (dotdots k)).length) :
    out.length > dotdot ↔ names ≠ [] := by
  constructor
  · intro h hnil
    subst hnil
    rw [hout, hdd] at h
    simp at h
  · intro hne
    obtain ⟨ns, e, rfl⟩ : ∃ ns e, names = ns ++ [e] := by
      rcases List.eq_nil_or_concat names with h | ⟨ns, e, h⟩
      · exact absurd h hne
      · exact ⟨ns, e, by simpa using h⟩
    have he : ProperElem e := hn e (by simp)
    have hel : 0 < e.length := List.length_pos.mpr he.1
    rw [hout, hdd, ← List.append_assoc,
      render_snoc rooted _ e (elems_ne_nil k ns (fun x hx => hn x (by simp [hx])))]
    have hm := render_length_mono rooted (dotdots k) ns
    split <;> simp only [List.length_append] <;> omega

/-- Backtracking leads to a state: the last name is gone. -/
theorem CState.back {rooted : Bool} {out : GoString} {dotdot : Nat}
    (h : CState rooted out dotdot) (hgt : out.length > dotdot) :
    CState rooted (backtrack out dotdot) dotdot := by
  obtain ⟨k, names, hk, hn, hout, hdd⟩ := h
  have hne := (CState.length_gt hn hout hdd).mp hgt
  obtain ⟨ns, e, rfl⟩ : ∃ ns e, names = ns ++ [e] := by
    rcases List.eq_nil_or_concat names with h | ⟨ns, e, h⟩
    · exact absurd h hne
    · exact ⟨ns, e, by simpa using h⟩
  have he : ProperElem e := hn e (by simp)
  have hns : ∀ x ∈ ns, ProperElem x := fun x hx => hn x (by simp [hx])
  refine ⟨k, ns, hk, hns, ?_, hdd⟩
  have hm := render_length_mono rooted (dotdots k) ns
  rw [hout, ← List.append_assoc, render_snoc rooted _ e (elems_ne_nil k ns hns)]
  split
  · rw [List.append_assoc]
    exact backtrack_sep _ e dotdot he.2.1 (by omega)
  · rename_i hc
    refine backtrack_len _ e dotdot he.2.1 he.1 ?_
    have hp : (rootLead rooted).length ≤ dotdot := by
      rw [hdd, render, List.length_append]; omega
    have hr : (render rooted (dotdots k ++ ns)).length = (rootLead rooted).length := by
      cases rooted <;> simpa [rootLead] using hc
    omega

/-- Writing out a `..` element in a relative path leads to a state: one more
leading `..`. -/
theorem CState.push {out : GoString} {dotdot : Nat}
    (h : CState false out dotdot) (hle : ¬ out.length > dotdot) :
    CState false ((if out.length > 0 then out ++ ['/'] else out) ++ ['.', '.'])
      ((if out.length > 0 then out ++ ['/'] else out) ++ ['.', '.']).length := by
  obtain ⟨k, names, _, hn, hout, hdd⟩ := h
  have hnil : names = [] := by
    by_contra hne
    exact hle ((CState.length_gt hn hout hdd).mpr hne)
  subst hnil
  rw [List.append_nil] at hout
  have hsn := render_snoc false (dotdots k) ['.', '.'] (dotdots_ne_nil k)
  have hkk : dotdots k ++ [['.', '.']] = dotdots (k + 1) := by
    simp [dotdots, List.replicate_succ']
  have heq : (if out.length > 0 then out ++ ['/'] else out) ++ ['.', '.'] =
      render false (dotdots (k + 1)) := by
    rw [← hkk, hsn, ← hout]
    simp [Nat.pos_iff_ne_zero]
  refine ⟨k + 1, [], fun h => absurd h (by simp), by simp, ?_, ?_⟩
  · rw [heq]; simp
  · rw [heq]

/-- A boundary followed by a boundary is a boundary. -/
theorem Boundary.append {r t : GoString} (hr : Boundary r) (ht : Boundary t) :
    Boundary (r ++ t) := by
  rcases hr with rfl | ⟨r', rfl⟩
  · simpa using ht
  · exact Or.inr ⟨r' ++ t, rfl⟩

/-- What the inner copy loop leaves is a boundary. -/
theorem dropWhile_boundary (p : GoString) :
    Boundary (p.dropWhile (fun x => !isPathSeparator x)) := by
  induction p with
  | nil => exact Or.inl rfl
  | cons c cs ih =>
    rw [List.dropWhile_cons]
    split
    · exact ih
    · rename_i h
      have hc : c = '/' := by simpa [isPathSeparator] using h
      exact Or.inr ⟨cs, by rw [hc]⟩

/-- What the inner copy loop takes has no separator. -/
theorem takeWhile_no_sep (p : GoString) :
    '/' ∉ p.takeWhile (fun x => !isPathSeparator x) := by
  intro h
  have := List.mem_takeWhile_imp h
  simp [isPathSeparator] at this

/-- Running the loop over `p` followed by a boundary is running it over `p`,
which leads from a state to a state, and going on from there. -/
theorem cleanRun_split (rooted : Bool) : ∀ (n : Nat) (p : GoString), p.length ≤ n →
    ∀ (out : GoString) (dotdot : Nat), CState rooted out dotdot →
    ∃ out' dotdot', CState rooted out' dotdot' ∧
      ∀ t, Boundary t → cleanRun rooted (p ++ t) out dotdot = cleanRun rooted t out' dotdot' := by
  intro n
  induction n with
  | zero =>
    intro p hp out dotdot hs
    have : p = [] := List.eq_nil_of_length_eq_zero (Nat.le_zero.mp hp)
    subst this
    exact ⟨out, dotdot, hs, fun t _ => rfl⟩
  | succ n ih =>
    intro p hp out dotdot hs
    cases p with
    | nil => exact ⟨out, dotdot, hs, fun t _ => rfl⟩
    | cons c cs =>
      have hcs : cs.length ≤ n := by simpa using hp
      by_cases hc : c = '/'
      · subst hc
        obtain ⟨out', dd', hs', hrun⟩ := ih cs hcs out dotdot hs
        exact ⟨out', dd', hs', fun t ht => by
          rw [List.cons_append, cleanRun_sep]; exact hrun t ht⟩
      · -- the element at the head of the path
        have hsplit := List.takeWhile_append_dropWhile (fun x => !isPathSeparator x) (c :: cs)
        have hnosep := takeWhile_no_sep (c :: cs)
        have hb := dropWhile_boundary (c :: cs)
        have hcn : (!isPathSeparator c) = true := by simpa [isPathSeparator] using hc
        have htk : (c :: cs).takeWhile (fun x => !isPathSeparator x) =
            c :: cs.takeWhile (fun x => !isPathSeparator x) := by
          rw [List.takeWhile_cons]; simp only [hcn, if_true]
        have hdk : (c :: cs).dropWhile (fun x => !isPathSeparator x) =
            cs.dropWhile (fun x => !isPathSeparator x) := by
          rw [List.dropWhile_cons]; simp only [hcn, if_true]
        generalize he : (c :: cs).takeWhile (fun x => !isPathSeparator x) = e at *
        generalize hr : (c :: cs).dropWhile (fun x => !isPathSeparator x) = rest at *
        have hrl : rest.length ≤ n := by
          rw [hdk]; exact Nat.le_trans (dropWhile_notSep_length_le cs) hcs
        have hene : e ≠ [] := by rw [htk]; simp
        rw [← hsplit]
        by_cases hdot : e = ['.']
        · obtain ⟨out', dd', hs', hrun⟩ := ih rest hrl out dotdot hs
          refine ⟨out', dd', hs', fun t ht => ?_⟩
          rw [hdot, List.append_assoc]
          show cleanRun rooted ('.' :: (rest ++ t)) out dotdot = _
          rw [cleanRun_dot rooted _ out dotdot (hb.append ht)]
          exact hrun t ht
        · by_cases hdd : e = ['.', '.']
          · by_cases hgt : out.length > dotdot
            · obtain ⟨out', dd', hs', hrun⟩ := ih rest hrl _ dotdot (hs.back hgt)
              refine ⟨out', dd', hs', fun t ht => ?_⟩
              rw [hdd, List.append_assoc]
              show cleanRun rooted ('.' :: '.' :: (rest ++ t)) out dotdot = _
              rw [cleanRun_dotdot rooted _ out dotdot (hb.append ht), if_pos hgt]
              exact hrun t ht
            · cases rooted with
              | true =>
                obtain ⟨out', dd', hs', hrun⟩ := ih rest hrl out dotdot hs
                refine ⟨out', dd', hs', fun t ht => ?_⟩
                rw [hdd, List.append_assoc]
                show cleanRun true ('.' :: '.' :: (rest ++ t)) out dotdot = _
                rw [cleanRun_dotdot true _ out dotdot (hb.append ht), if_neg hgt]
                exact hrun t ht
              | false =>
                obtain ⟨out', dd', hs', hrun⟩ := ih rest hrl _ _ (hs.push hgt)
                refine ⟨out', dd', hs', fun t ht => ?_⟩
                rw [hdd, List.append_assoc]
                show cleanRun false ('.' :: '.' :: (rest ++ t)) out dotdot = _
                rw [cleanRun_dotdot false _ out dotdot (hb.append ht), if_neg hgt]
                exact hrun t ht
          · have hpe : ProperElem e := ⟨hene, hnosep, hdot, hdd⟩
            obtain ⟨out', dd', hs', hrun⟩ := ih rest hrl _ dotdot (hs.elem hpe)
            refine ⟨out', dd', hs', fun t ht => ?_⟩
            rw [List.append_assoc, cleanRun_elem rooted e _ out dotdot hpe (hb.append ht)]
            exact hrun t ht

/-- `Clean` is the loop started at the leading separator, or at the empty
buffer, followed by the last step. -/
theorem Clean_eq_run (q : GoString) :
    Clean q = finish (cleanRun (q.head? == some '/') q (rootLead (q.head? == some '/'))
      (rootLead (q.head? == some '/')).length) := by
  cases q with
  | nil => simp [Clean, finish, cleanRun_nil, rootLead]
  | cons c cs =>
    by_cases hc : c = '/'
    · subst hc
      have h1 : (('/' :: cs).head? == some '/') = true := by simp
      rw [h1, cleanRun_sep]
      simp only [Clean, isPathSeparator, beq_self_eq_true, if_true, finish, rootLead,
        List.length_singleton]
      rw [cleanLoop_eq_run true _ cs _ _ (by simp)]
    · have h1 : ((c :: cs).head? == some '/') = false := by simpa using hc
      have h2 : isPathSeparator c = false := by simpa [isPathSeparator] using hc
      rw [h1]
      simp only [Clean, h2, Bool.false_eq_true, if_false, finish, rootLead, List.length_nil]
      rfl

/-- Segments followed by a boundary are a boundary. -/
theorem segs_boundary (els : List GoString) {t : GoString} (ht : Boundary t) :
    Boundary (segs els ++ t) := by
  cases els with
  | nil => simpa [segs] using ht
  | cons e es => exact Or.inr ⟨e ++ segs es ++ t, by simp [segs]⟩

/-- Writing out one more leading `..` element. -/
theorem render_push (j : Nat) :
    (if (render false (dotdots j)).length > 0 then render false (dotdots j) ++ ['/']
      else render false (dotdots j)) ++ ['.', '.'] = render false (dotdots (j + 1)) := by
  have hsn := render_snoc false (dotdots j) ['.', '.'] (dotdots_ne_nil j)
  have hkk : dotdots j ++ [['.', '.']] = dotdots (j + 1) := by
    simp [dotdots, List.replicate_succ']
  rw [← hkk, hsn]
  simp [Nat.pos_iff_ne_zero]

/-- The loop over `m` more `..` elements of a relative path writes them out. -/
theorem cleanRun_dotdots (m : Nat) : ∀ (j : Nat) (t : GoString), Boundary t →
    cleanRun false (segs (dotdots m) ++ t) (render false (dotdots j))
        (render false (dotdots j)).length =
      cleanRun false t (render false (dotdots (j + m)))
        (render false (dotdots (j + m))).length := by
  induction m with
  | zero => intro j t _; rfl
  | succ m ih =>
    intro j t ht
    have hs : segs (dotdots (m + 1)) ++ t = '/' :: '.' :: '.' :: (segs (dotdots m) ++ t) := by
      simp [dotdots, List.replicate_succ, segs]
    rw [hs, cleanRun_sep, cleanRun_dotdot false _ _ _ (segs_boundary _ ht),
      if_neg (Nat.lt_irrefl _)]
    simp only [Bool.not_false, if_true]
    rw [render_push j, ih (j + 1) t ht]
    have : j + 1 + m = j + (m + 1) := by omega
    rw [this]

/-- The loop over proper names writes them out. -/
theorem cleanRun_names (rooted : Bool) (names : List GoString) :
    ∀ (els : List GoString) (dotdot : Nat) (t : GoString),
    (∀ e ∈ names, ProperElem e) → (∀ x ∈ els, x ≠ []) → Boundary t →
    cleanRun rooted (segs names ++ t) (render rooted els) dotdot =
      cleanRun rooted t (render rooted (els ++ names)) dotdot := by
  induction names with
  | nil => intro els dotdot t _ _ _; simp [segs]
  | cons n ns ih =>
    intro els dotdot t hn hels ht
    have hpn : ProperElem n := hn n (List.mem_cons_self _ _)
    have hs : segs (n :: ns) ++ t = '/' :: (n ++ (segs ns ++ t)) := by simp [segs]
    rw [hs, cleanRun_sep, cleanRun_elem rooted n _ _ dotdot hpn (segs_boundary ns ht),
      ← render_snoc rooted els n hels,
      ih (els ++ [n]) dotdot t (fun e he => hn e (List.mem_cons_of_mem _ he)) ?_ ht]
    · simp
    · intro x hx
      rcases List.mem_append.mp hx with h | h
      · exact hels x h
      · rw [List.mem_singleton.mp h]; exact hpn.1

/-- The loop over the elements of a state, from the start, reaches that state. -/
theorem cleanRun_elems (rooted : Bool) (k : Nat) (names : List GoString) (t : GoString)
    (hk : rooted = true → k = 0) (hn : ∀ e ∈ names, ProperElem e) (ht : Boundary t) :
    cleanRun rooted (segs (dotdots k ++ names) ++ t) (rootLead rooted)
        (rootLead rooted).length =
      cleanRun rooted t (render rooted (dotdots k ++ names))
        (render rooted (dotdots k)).length := by
  have h0 : rootLead rooted = render rooted (dotdots 0) := by simp [render, dotdots, segs]
  rw [segs_append, List.append_assoc]
  cases rooted with
  | true =>
    have hk0 : k = 0 := hk rfl
    subst hk0
    have := cleanRun_names true names [] (rootLead true).length t hn (by simp) ht
    simpa [dotdots, segs, render] using this
  | false =>
    have h1 := cleanRun_dotdots k 0 (segs names ++ t) (segs_boundary names ht)
    rw [← h0, Nat.zero_add] at h1
    rw [h1]
    exact cleanRun_names false names (dotdots k) _ t hn (dotdots_ne_nil k) ht

/-- A `..` element has no separator. -/
theorem dotdots_no_sep (k : Nat) : ∀ x ∈ dotdots k, '/' ∉ x := by
  intro x hx
  rw [dotdots, List.mem_replicate] at hx
  rw [hx.2]
  decide

/-- No element of a state has a separator. -/
theorem elems_no_sep (k : Nat) (names : List GoString) (hn : ∀ e ∈ names, ProperElem e) :
    ∀ x ∈ dotdots k ++ names, '/' ∉ x := by
  intro x hx
  rcases List.mem_append.mp hx with h | h
  · exact dotdots_no_sep k x h
  · exact (hn x h).2.1

/-- No element of a state is `.`. -/
theorem elems_ne_dot (k : Nat) (names : List GoString) (hn : ∀ e ∈ names, ProperElem e) :
    ∀ x ∈ dotdots k ++ names, x ≠ ['.'] := by
  intro x hx
  rcases List.mem_append.mp hx with h | h
  · rw [dotdots, List.mem_replicate] at h
    rw [h.2]; decide
  · exact (hn x h).2.2.1

/-- The buffer of a rooted path. -/
theorem render_true (els : List GoString) : render true els = '/' :: (segs els).tail := rfl

/-- The buffer of a relative path. -/
theorem render_false (els : List GoString) : render false els = (segs els).tail := rfl

/-- A non-empty buffer starts with a separator exactly when the path is
rooted. -/
theorem render_head (rooted : Bool) (els : List GoString) (x : GoString)
    (hne : ∀ e ∈ els, e ≠ []) (hsep : ∀ e ∈ els, '/' ∉ e) (h : render rooted els ≠ []) :
    ((render rooted els ++ x).head? == some '/') = rooted := by
  cases rooted with
  | true => simp [render_true]
  | false =>
    cases els with
    | nil => simp [render_false, segs] at h
    | cons e es =>
      have he := hne e (List.mem_cons_self _ _)
      have hs := hsep e (List.mem_cons_self _ _)
      cases e with
      | nil => exact absurd rfl he
      | cons c cs =>
        have hc : c ≠ '/' := fun h => hs (by simp [h])
        simp [render_false, segs, hc]

/-- The loop over a buffer followed by a separator is the loop over its
segments. -/
theorem cleanRun_render (rooted : Bool) (els : List GoString) (x out : GoString)
    (dotdot : Nat) :
    cleanRun rooted (render rooted els ++ '/' :: x) out dotdot =
      cleanRun rooted (segs els ++ '/' :: x) out dotdot := by
  have ht : ∀ r, cleanRun r ((segs els).tail ++ '/' :: x) out dotdot =
      cleanRun r (segs els ++ '/' :: x) out dotdot := by
    intro r
    cases els with
    | nil => simp only [segs, List.tail_nil]
    | cons e es =>
      simp only [segs, List.tail_cons, List.cons_append]
      rw [cleanRun_sep]
  cases rooted with
  | true => rw [render_true, List.cons_append, cleanRun_sep]; exact ht true
  | false => rw [render_false]; exact ht false

/-- The last step leaves a non-empty buffer as it is. -/
theorem finish_of_ne_nil {out : GoString} (h : out ≠ []) : finish out = out := by
  cases out with
  | nil => exact absurd rfl h
  | cons c cs => simp [finish]

/-- Cleaning a cleaned path followed by a separator and more: the loop goes on
from the state of the cleaned path. -/
theorem Clean_render_sep (rooted : Bool) (k : Nat) (names : List GoString) (t : GoString)
    (hk : rooted = true → k = 0) (hn : ∀ e ∈ names, ProperElem e)
    (h : render rooted (dotdots k ++ names) ≠ []) :
    Clean (render rooted (dotdots k ++ names) ++ '/' :: t) =
      finish (cleanRun rooted t (render rooted (dotdots k ++ names))
        (render rooted (dotdots k)).length) := by
  rw [Clean_eq_run, render_head rooted _ _ (elems_ne_nil k names hn) (elems_no_sep k names hn) h,
    cleanRun_render, cleanRun_elems rooted k names _ hk hn (Boundary.sep t), cleanRun_sep]

/-- The result of `Clean` is the buffer of a state, `.` for the empty buffer. -/
theorem Clean_state (q : GoString) :
    ∃ (rooted : Bool) (k : Nat) (names : List GoString), (rooted = true → k = 0) ∧
      (∀ e ∈ names, ProperElem e) ∧ Clean q = finish (render rooted (dotdots k ++ names)) := by
  obtain ⟨out, dd, ⟨k, names, hk, hn, hout, _⟩, hrun⟩ :=
    cleanRun_split (q.head? == some '/') q.length q (Nat.le_refl _) _ _
      (CState.init (q.head? == some '/'))
  refine ⟨_, k, names, hk, hn, ?_⟩
  have := hrun [] Boundary.nil
  rw [List.append_nil, cleanRun_nil] at this
  rw [Clean_eq_run, this, hout]

/-- Cleaning a cleaned path joined with a proper element writes the element
behind the elements of the cleaned path. -/
theorem Clean_append_elem (rooted : Bool) (k : Nat) (names : List GoString) (e : GoString)
    (hk : rooted = true → k = 0) (hn : ∀ x ∈ names, ProperElem x) (he : ProperElem e) :
    Clean (finish (render rooted (dotdots k ++ names)) ++ '/' :: e) =
      render rooted (dotdots k ++ names ++ [e]) := by
  have hsn := render_snoc rooted (dotdots k ++ names) e (elems_ne_nil k names hn)
  have hnn : render rooted (dotdots k ++ names ++ [e]) ≠ [] := by
    rw [hsn]
    intro h
    exact he.1 (List.append_eq_nil.mp h).2
  by_cases h : render rooted (dotdots k ++ names) = []
  · -- the directory is `.`
    have hr : rooted = false := by
      cases rooted with
      | false => rfl
      | true => simp [render_true] at h
    subst hr
    have hfin : finish (render false (dotdots k ++ names)) = ['.'] := by rw [h]; rfl
    have h1 : ((['.'] ++ '/' :: e).head? == some '/') = false := by
      show (some '.' == some '/') = false
      decide
    rw [hfin, Clean_eq_run, h1]
    show finish (cleanRun false ('.' :: '/' :: e) [] 0) = _
    rw [cleanRun_dot false _ _ _ (Boundary.sep e), cleanRun_sep]
    have := cleanRun_elem false e [] [] 0 he Boundary.nil
    rw [List.append_nil] at this
    rw [this, cleanRun_nil, hsn, h]
    simp only [List.length_nil, bne_self_eq_false, Bool.and_false, Bool.false_or,
      Bool.false_eq_true, if_false, List.nil_append]
    exact finish_of_ne_nil he.1
  · rw [finish_of_ne_nil h, Clean_render_sep rooted k names e hk hn h]
    have := cleanRun_elem rooted e [] (render rooted (dotdots k ++ names))
      (render rooted (dotdots k)).length he Boundary.nil
    rw [List.append_nil] at this
    rw [this, cleanRun_nil, ← hsn]
    exact finish_of_ne_nil hnn

/-- The part `path[:i+1]` that `Dir` cleans: all up to the last separator. -/
theorem dir_of_append (p e : GoString) (he : '/' ∉ e) (hp : Boundary p.reverse) :
    ((p ++ e).reverse.dropWhile (fun x => !isPathSeparator x)).reverse = p := by
  rw [List.reverse_append,
    (takeWhile_append_boundary e.reverse p.reverse (by simpa using he) hp).2,
    List.reverse_reverse]

/-- The directory of a cleaned path that ends in a proper element is the
cleaned path without that element. -/
theorem Dir_render_snoc (rooted : Bool) (k : Nat) (names : List GoString) (e : GoString)
    (hk : rooted = true → k = 0) (hn : ∀ x ∈ names, ProperElem x) (he : ProperElem e) :
    Dir (render rooted (dotdots k ++ names ++ [e])) =
      finish (render rooted (dotdots k ++ names)) := by
  have hsn := render_snoc rooted (dotdots k ++ names) e (elems_ne_nil k names hn)
  rw [Dir, hsn]
  split
  · rename_i hc
    have hne : render rooted (dotdots k ++ names) ≠ [] := by
      intro h
      rw [h] at hc
      cases rooted <;> simp at hc
      simp [render_true] at h
    rw [dir_of_append _ e he.2.1 (by simp [Boundary]),
      Clean_render_sep rooted k names [] hk hn hne, cleanRun_nil]
  · rename_i hc
    cases rooted with
    | true =>
      have hl : (render true (dotdots k ++ names)).length = 1 := by simpa using hc
      have h1 : render true (dotdots k ++ names) = ['/'] := by
        rw [render_true] at hl ⊢
        have : (segs (dotdots k ++ names)).tail = [] :=
          List.eq_nil_of_length_eq_zero (by simpa using hl)
        rw [this]
      rw [h1, dir_of_append _ e he.2.1 (by simp [Boundary])]
      decide
    | false =>
      have h1 : render false (dotdots k ++ names) = [] :=
        List.eq_nil_of_length_eq_zero (by simpa using hc)
      rw [h1, dir_of_append [] e he.2.1 (Or.inl rfl)]
      decide

/-- `Clean` never returns the empty string. -/
theorem Clean_ne_nil (q : GoString) : Clean q ≠ [] := by
  obtain ⟨r, k, names, _, _, h⟩ := Clean_state q
  rw [h, finish]
  split
  · simp
  · rename_i hc
    intro h'
    rw [h'] at hc
    simp at hc

/-- `Dir` never returns the empty string. -/
theorem Dir_ne_nil (srcPath : GoString) : Dir srcPath ≠ [] := Clean_ne_nil _

/-- The backup path is the cleaned concatenation of directory, separator, base
name and suffix. -/
theorem backupPath_as_Clean (srcPath suffix : GoString) :
    generateBackupPath srcPath suffix = Clean (Dir srcPath ++ '/' :: (Base srcPath ++ suffix)) := by
  simp only [generateBackupPath, Join, Dir_ne_nil, if_false, joinSep]

/-- The buffer of a state is never `.`. -/
theorem render_ne_dot (rooted : Bool) (k : Nat) (names : List GoString)
    (hn : ∀ x ∈ names, ProperElem x) : render rooted (dotdots k ++ names) ≠ ['.'] := by
  cases rooted with
  | true => simp [render_true]
  | false =>
    rw [render_false]
    have hd := elems_ne_dot k names hn
    have hne := elems_ne_nil k names hn
    generalize dotdots k ++ names = els at hd hne
    cases els with
    | nil => simp [segs]
    | cons x xs =>
      have hx := hd x (List.mem_cons_self _ _)
      have hx0 := hne x (List.mem_cons_self _ _)
      intro h
      cases x with
      | nil => exact hx0 rfl
      | cons c cs =>
        simp only [segs, List.tail_cons, List.cons_append, List.cons.injEq,
          List.append_eq_nil] at h
        exact hx (by rw [h.1, h.2.1])

/-! ## The backup path -/

/-- C3, amended.  When `Base(srcPath) + suffix` is a single path element (not
empty, no separator, neither `.` nor `..`), the backup path is a direct child
of the source's directory: `Dir(generateBackupPath(srcPath, suffix))` equals
`Dir(srcPath)`. -/
theorem Dir_generateBackupPath (srcPath suffix : GoString)
    (helem : ProperElem (Base srcPath ++ suffix)) :
    Dir (generateBackupPath srcPath suffix) = Dir srcPath := by
  obtain ⟨r, k, names, hk, hn, hD⟩ :=
    Clean_state (srcPath.reverse.dropWhile (fun x => !isPathSeparator x)).reverse
  have hdir : Dir srcPath = finish (render r (dotdots k ++ names)) := hD
  rw [backupPath_as_Clean, hdir, Clean_append_elem r k names _ hk hn helem,
    Dir_render_snoc r k names _ hk hn helem]

/-- C3, amended, at `/data/file.txt` with suffix `.bak`. -/
theorem Dir_generateBackupPath_witness :
    ProperElem (Base "/data/file.txt".toList ++ ".bak".toList) ∧
    Dir (generateBackupPath "/data/file.txt".toList ".bak".toList) = "/data".toList :=
  ⟨by decide, (Dir_generateBackupPath "/data/file.txt".toList ".bak".toList (by decide)).trans
    (by decide)⟩

/-- C3 as stated fails: with the suffix `/../../x` the backup path of
`/data/file.txt` is `/x`, whose directory `/` is not the source's directory
`/data`. -/
theorem backupPath_escapes_parent :
    generateBackupPath "/data/file.txt".toList "/../../x".toList = "/x".toList ∧
    Dir (generateBackupPath "/data/file.txt".toList "/../../x".toList) = "/".toList ∧
    Dir "/data/file.txt".toList = "/data".toList ∧
    Dir (generateBackupPath "/data/file.txt".toList "/../../x".toList) ≠
      Dir "/data/file.txt".toList := by
  decide

/-- C2, amended.  The backup path is the cleaned form of
`Dir(srcPath) + "/" + Base(srcPath) + suffix`, for every source path and
suffix.  When `Base(srcPath) + suffix` is a single path element, it is
`Dir(srcPath) + "/" + Base(srcPath) + suffix` itself, except that no second
separator is written after the directory `/` and that the directory `.` is
dropped. -/
theorem generateBackupPath_eq (srcPath suffix : GoString) :
    generateBackupPath srcPath suffix =
      Clean (Dir srcPath ++ '/' :: (Base srcPath ++ suffix)) ∧
    (ProperElem (Base srcPath ++ suffix) →
      generateBackupPath srcPath suffix =
        if Dir srcPath = ['/'] then '/' :: (Base srcPath ++ suffix)
        else if Dir srcPath = ['.'] then Base srcPath ++ suffix
        else Dir srcPath ++ '/' :: (Base srcPath ++ suffix)) := by
  refine ⟨backupPath_as_Clean srcPath suffix, fun helem => ?_⟩
  obtain ⟨r, k, names, hk, hn, hD⟩ :=
    Clean_state (srcPath.reverse.dropWhile (fun x => !isPathSeparator x)).reverse
  have hdir : Dir srcPath = finish (render r (dotdots k ++ names)) := hD
  have hsn := render_snoc r (dotdots k ++ names) (Base srcPath ++ suffix)
    (elems_ne_nil k names hn)
  have hdot := render_ne_dot r k names hn
  rw [backupPath_as_Clean, hdir, Clean_append_elem r k names _ hk hn helem, hsn]
  by_cases hnil : render r (dotdots k ++ names) = []
  · -- the directory is `.`
    have hr : r = false := by
      cases r with
      | false => rfl
      | true => simp [render_true] at hnil
    subst hr
    rw [hnil]
    simp [finish]
  · rw [finish_of_ne_nil hnil]
    have hh := render_head r (dotdots k ++ names) [] (elems_ne_nil k names hn)
      (elems_no_sep k names hn) hnil
    rw [List.append_nil] at hh
    by_cases hroot : render r (dotdots k ++ names) = ['/']
    · rw [hroot] at hh ⊢
      have hr : r = true := by simpa using hh.symm
      subst hr
      simp
    · rw [if_neg hroot, if_neg hdot]
      have hc : ((r && (render r (dotdots k ++ names)).length != 1) ||
          (!r && (render r (dotdots k ++ names)).length != 0)) = true := by
        cases r with
        | false => simpa using hnil
        | true =>
          simp only [Bool.true_and, Bool.not_true, Bool.false_and, Bool.or_false, bne_iff_ne,
            ne_eq]
          intro hl
          apply hroot
          rw [render_true] at hl ⊢
          have : (segs (dotdots k ++ names)).tail = [] :=
            List.eq_nil_of_length_eq_zero (by simpa using hl)
          rw [this]
      rw [if_pos hc]
      simp

/-- C2, amended, at the first case of `TestBackupPathGeneration`. -/
theorem generateBackupPath_eq_witness :
    ProperElem (Base "/data/file.txt".toList ++ ".bak".toList) ∧
    generateBackupPath "/data/file.txt".toList ".bak".toList = "/data/file.txt.bak".toList :=
  ⟨by decide, ((generateBackupPath_eq "/data/file.txt".toList ".bak".toList).2
    (by decide)).trans (by decide)⟩

/-- C2 as stated fails: for `/file.txt` and `.bak` the backup path is
`/file.txt.bak`, while `Dir + "/" + Base + suffix` is `//file.txt.bak`; and for
`/data/file.txt` with the suffix `/../x` the backup path is `/data/x`, while the
concatenation is `/data/file.txt/../x`. -/
theorem backupPath_not_concatenation :
    generateBackupPath "/file.txt".toList ".bak".toList = "/file.txt.bak".toList ∧
    Dir "/file.txt".toList ++ "/".toList ++ Base "/file.txt".toList ++ ".bak".toList =
      "//file.txt.bak".toList ∧
    generateBackupPath "/file.txt".toList ".bak".toList ≠
      Dir "/file.txt".toList ++ "/".toList ++ Base "/file.txt".toList ++ ".bak".toList ∧
    generateBackupPath "/data/file.txt".toList "/../x".toList = "/data/x".toList ∧
    generateBackupPath "/data/file.txt".toList "/../x".toList ≠
      Dir "/data/file.txt".toList ++ "/".toList ++ Base "/data/file.txt".toList ++
        "/../x".toList := by
  decide

/-- The embedding of `filepath.Clean`, `Base`, `Dir` and `Join` passes the test
tables of Go's standard library. -/
theorem filepath_test_tables :
    (∀ t ∈ cleanTests, Clean t.1.toList = t.2.toList) ∧
    (∀ t ∈ baseTests, Base t.1.toList = t.2.toList) ∧
    (∀ t ∈ dirTests, Dir t.1.toList = t.2.toList) ∧
    (∀ t ∈ joinTests, Join (t.1.map String.toList) = t.2.toList) := by
  decide

/-- The three cases of `TestBackupPathGeneration` (backup_test.go). -/
theorem TestBackupPathGeneration :
    generateBackupPath "/data/file.txt".toList ".bak".toList = "/data/file.txt.bak".toList ∧
    generateBackupPath "/var/log/app.log".toList ".20230101".toList =
      "/var/log/app.log.20230101".toList ∧
    generateBackupPath "/tmp/config".toList "_backup".toList = "/tmp/config_backup".toList := by
  decide

/-! ## Properties of `LocalBackupImpl` -/

/-- The removal step only adds calls to the record. -/
theorem LocalBackupImpl.removeOld_ops (dst : GoString) (message : String) (w : LocalWorld) :
    ∃ pre, (LocalBackupImpl.removeOld dst message w).2.ops = w.ops ++ pre := by
  unfold LocalBackupImpl.removeOld LocalBackupImpl.PathExists LocalBackupImpl.RemoveAll
  by_cases hp : dst = []
  · simp only [hp, if_true]
    exact ⟨[], by simp⟩
  · simp only [hp, if_false]
    cases hs : osStat w.fs dst with
    | error e =>
      cases hn : e.isNotExist
      · simp only [hn, Bool.false_eq_true, if_false, LocalWorld.log]
        cases hr : (osRemoveAll w.fs dst).1 with
        | none => exact ⟨[SysOp.stat dst, SysOp.removeAll dst], by simp⟩
        | some e' => exact ⟨[SysOp.stat dst, SysOp.removeAll dst], by simp⟩
      · simp only [hn, if_true, LocalWorld.log]
        exact ⟨[SysOp.stat dst], rfl⟩
    | ok info =>
      simp only [LocalWorld.log]
      cases hr : (osRemoveAll w.fs dst).1 with
      | none => exact ⟨[SysOp.stat dst, SysOp.removeAll dst], by simp⟩
      | some e' => exact ⟨[SysOp.stat dst, SysOp.removeAll dst], by simp⟩

/-- C9, amended.  In every successful run of `copyFile(src, dst)` the calls end
with the copy of the content, then `Chtimes` and `Chmod` of `preserveMetadata`
with the source's modification time and permission bits, then the `Sync` of the
destination, then the two deferred `Close` calls: the metadata is applied after
the content is written and before the destination is synced. -/
theorem LocalBackupImpl.copyFile_ops_order (src dst : GoString) (w : LocalWorld)
    (hok : (LocalBackupImpl.copyFile src dst w).1 = none) :
    ∃ (pre : List SysOp) (info : FileInfo),
      (LocalBackupImpl.copyFile src dst w).2.ops =
        w.ops ++ pre ++ [SysOp.ioCopy dst src, SysOp.chtimes dst info.modTime,
          SysOp.chmod dst info.perm, SysOp.sync dst, SysOp.close dst, SysOp.close src] := by
  obtain ⟨pre0, hpre0⟩ := LocalBackupImpl.removeOld_ops dst "删除旧文件失败" w
  unfold LocalBackupImpl.copyFile at hok ⊢
  rcases h1 : LocalBackupImpl.removeOld dst "删除旧文件失败" w with ⟨e1, w1⟩
  rw [h1] at hok hpre0
  simp only at hpre0
  cases e1 with
  | some e => simp at hok
  | none =>
    simp only at hok ⊢
    cases h2 : osStat w1.fs src with
    | error e => simp [h2] at hok
    | ok srcInfo =>
      simp only [h2] at hok ⊢
      cases h3 : osOpen (w1.log (SysOp.stat src)).fs src with
      | error e => simp [h3] at hok
      | ok srcFile =>
        simp only [h3] at hok ⊢
        rcases h4 : osOpenFileCreateTrunc ((w1.log (SysOp.stat src)).log
          (SysOp.openRead src)).fs dst srcInfo.perm with ⟨r4, fs4⟩
        simp only [h4] at hok ⊢
        cases r4 with
        | error e => simp at hok
        | ok dstFile =>
          simp only at hok ⊢
          rcases h5 : ioCopy fs4 dstFile srcFile with ⟨e5, fs5⟩
          simp only [h5] at hok ⊢
          cases e5 with
          | some e => simp at hok
          | none =>
            simp only at hok ⊢
            unfold LocalBackupImpl.preserveMetadata at hok ⊢
            rcases h6 : osChtimes fs5 dst srcInfo.modTime with ⟨e6, fs6⟩
            simp only [h6] at hok ⊢
            cases e6 with
            | some e => simp at hok
            | none =>
              simp only at hok ⊢
              cases h7 : (osChmod fs6 dst srcInfo.perm).1 with
              | some e => simp [h7] at hok
              | none =>
                refine ⟨pre0 ++ [SysOp.stat src, SysOp.openRead src,
                  SysOp.openFile dst srcInfo.perm], srcInfo, ?_⟩
                simp [h7, LocalWorld.log, hpre0]

/-- C9, amended, on the copy of `/d/f` to `/d/g`. -/
theorem LocalBackupImpl.copyFile_ops_order_witness :
    (LocalBackupImpl.copyFile "/d/f".toList "/d/g".toList ⟨exampleFS, []⟩).1 = none ∧
    ∃ (pre : List SysOp) (info : FileInfo),
      (LocalBackupImpl.copyFile "/d/f".toList "/d/g".toList ⟨exampleFS, []⟩).2.ops =
        [] ++ pre ++ [SysOp.ioCopy "/d/g".toList "/d/f".toList,
          SysOp.chtimes "/d/g".toList info.modTime, SysOp.chmod "/d/g".toList info.perm,
          SysOp.sync "/d/g".toList, SysOp.close "/d/g".toList, SysOp.close "/d/f".toList] :=
  ⟨by decide, LocalBackupImpl.copyFile_ops_order "/d/f".toList "/d/g".toList ⟨exampleFS, []⟩
    (by decide)⟩

/-- C9 as stated fails: in the successful copy of `/d/f` to `/d/g` the `Sync` of
the destination is the eighth call, after the `Chtimes` (sixth) and the `Chmod`
(seventh) of `preserveMetadata`. -/
theorem LocalBackupImpl.copyFile_sync_after_metadata :
    (LocalBackupImpl.copyFile "/d/f".toList "/d/g".toList ⟨exampleFS, []⟩).1 = none ∧
    (LocalBackupImpl.copyFile "/d/f".toList "/d/g".toList ⟨exampleFS, []⟩).2.ops =
      [SysOp.stat "/d/g".toList, SysOp.stat "/d/f".toList, SysOp.openRead "/d/f".toList,
        SysOp.openFile "/d/g".toList 0o644, SysOp.ioCopy "/d/g".toList "/d/f".toList,
        SysOp.chtimes "/d/g".toList 20, SysOp.chmod "/d/g".toList 0o644,
        SysOp.sync "/d/g".toList, SysOp.close "/d/g".toList, SysOp.close "/d/f".toList] ∧
    ¬ ((LocalBackupImpl.copyFile "/d/f".toList "/d/g".toList ⟨exampleFS, []⟩).2.ops.indexOf
        (SysOp.sync "/d/g".toList) <
      (LocalBackupImpl.copyFile "/d/f".toList "/d/g".toList ⟨exampleFS, []⟩).2.ops.indexOf
        (SysOp.chtimes "/d/g".toList 20)) := by
  decide

/-- C8 fails on the code.  `Copy("/d", "/d")` on a directory `/d` that holds the
file `/d/f` returns nil, and afterwards `/d` is an empty directory: the file
`/d/f` that the source held is at neither the destination nor the source. -/
theorem LocalBackupImpl.copy_onto_itself_empties_directory :
    exampleFS.lookup ["d".toList, "f".toList] = some (Node.file 0o644 20 "content".toList) ∧
    (LocalBackupImpl.Copy 0 2 "/d".toList "/d".toList ⟨exampleFS, []⟩).map (fun r => r.1)
      = some none ∧
    (LocalBackupImpl.Copy 0 2 "/d".toList "/d".toList ⟨exampleFS, []⟩).map
      (fun r => r.2.fs.lookup ["d".toList, "f".toList]) = some none ∧
    (LocalBackupImpl.Copy 0 2 "/d".toList "/d".toList ⟨exampleFS, []⟩).map
      (fun r => r.2.fs.entries ["d".toList]) = some [] ∧
    (LocalBackupImpl.copyFile "/d/f".toList "/d/f".toList ⟨exampleFS, []⟩).1 =
      some (LocalError.wrap (LocalError.sys Errno.ENOENT) "获取源文件状态失败") := by
  decide

/-- The file copy of `TestLocalBackupMethods` on the example filesystem:
`Copy("/d/f", "/d/g")` returns nil, the copy holds the source's bytes,
permission bits and modification time, and the source is as it was. -/
theorem LocalBackupImpl.copy_file_example :
    (LocalBackupImpl.Copy 0 2 "/d/f".toList "/d/g".toList ⟨exampleFS, []⟩).map (fun r => r.1)
      = some none ∧
    (LocalBackupImpl.Copy 0 2 "/d/f".toList "/d/g".toList ⟨exampleFS, []⟩).map
      (fun r => r.2.fs.lookup ["d".toList, "g".toList])
      = some (some (Node.file 0o644 20 "content".toList)) ∧
    (LocalBackupImpl.Copy 0 2 "/d/f".toList "/d/g".toList ⟨exampleFS, []⟩).map
      (fun r => r.2.fs.lookup ["d".toList, "f".toList])
      = some (some (Node.file 0o644 20 "content".toList)) := by
  decide

/-- A directory copy on the example filesystem: `Copy("/d", "/e")` returns nil,
`/e` has the permission bits and modification time of `/d`, `/e/f` is the copy
of `/d/f`, and the source tree is as it was. -/
theorem LocalBackupImpl.copy_directory_example :
    (LocalBackupImpl.Copy 0 2 "/d".toList "/e".toList ⟨exampleFS, []⟩).map (fun r => r.1)
      = some none ∧
    (LocalBackupImpl.Copy 0 2 "/d".toList "/e".toList ⟨exampleFS, []⟩).map
      (fun r => (r.2.fs.lookup ["e".toList], r.2.fs.lookup ["e".toList, "f".toList],
        r.2.fs.entries ["e".toList]))
      = some (some (Node.dir 0o755 10), some (Node.file 0o644 20 "content".toList),
        [⟨"f".toList, false⟩]) ∧
    (LocalBackupImpl.Copy 0 2 "/d".toList "/e".toList ⟨exampleFS, []⟩).map
      (fun r => (r.2.fs.lookup ["d".toList], r.2.fs.lookup ["d".toList, "f".toList],
        r.2.fs.entries ["d".toList]))
      = some (some (Node.dir 0o755 10), some (Node.file 0o644 20 "content".toList),
        [⟨"f".toList, false⟩]) := by
  decide

/-! ## The local filesystem obeys the filesystem laws -/

/-- A filter that keeps every entry of a key does not change what is found
under the key. -/
theorem lookup_filter_keep (xs : List (Loc × Node)) (l : Loc) (p : Loc × Node → Bool)
    (h : ∀ n, p (l, n) = true) : (xs.filter p).lookup l = xs.lookup l := by
  induction xs with
  | nil => rfl
  | cons kv xs ih =>
    obtain ⟨k, v⟩ := kv
    by_cases hk : l = k
    · subst hk
      simp [List.filter_cons, h, List.lookup_cons]
    · have hk' : (l == k) = false := by simpa using hk
      by_cases hp : p (k, v) = true
      · simp [List.filter_cons, hp, List.lookup_cons, hk', ih]
      · simp [List.filter_cons, hp, List.lookup_cons, hk', ih]

/-- A filter that drops every entry of a key leaves nothing under the key. -/
theorem lookup_filter_drop (xs : List (Loc × Node)) (l : Loc) (p : Loc × Node → Bool)
    (h : ∀ n, p (l, n) = false) : (xs.filter p).lookup l = none := by
  induction xs with
  | nil => rfl
  | cons kv xs ih =>
    obtain ⟨k, v⟩ := kv
    by_cases hk : l = k
    · subst hk
      simp [List.filter_cons, h, ih]
    · have hk' : (l == k) = false := by simpa using hk
      by_cases hp : p (k, v) = true
      · simp [List.filter_cons, hp, List.lookup_cons, hk', ih]
      · simp [List.filter_cons, hp, ih]

/-- What is found after `put`. -/
theorem FS.lookup_put (fs : FS) (l l' : Loc) (n : Node) :
    (fs.put l n).lookup l' = if l' = l then some n else fs.lookup l' := by
  unfold FS.put FS.lookup
  by_cases h : l' = l
  · subst h
    simp [List.lookup_cons]
  · have h' : (l' == l) = false := by simpa using h
    simp only [List.lookup_cons, h', h, if_false]
    exact lookup_filter_keep _ _ _ (fun n => by simpa using h)

/-- What is found after `dropTree`. -/
theorem FS.lookup_dropTree (fs : FS) (l l' : Loc) :
    (fs.dropTree l).lookup l' = if l.isPrefixOf l' then none else fs.lookup l' := by
  unfold FS.dropTree FS.lookup
  by_cases h : l.isPrefixOf l' = true
  · simp only [h, if_true]
    exact lookup_filter_drop _ _ _ (fun n => by simp [h])
  · simp only [h, if_false]
    refine lookup_filter_keep _ _ _ (fun n => ?_)
    cases hb : l.isPrefixOf l' with
    | true => exact absurd hb h
    | false => rfl

/-- The clock holds no node. -/
theorem FS.lookup_tick (fs : FS) (l : Loc) : fs.tick.lookup l = fs.lookup l := rfl

/-- What is found after `touchParent`. -/
theorem FS.lookup_touchParent (fs : FS) (c : GoString) (cs : Loc) (l : Loc) :
    (fs.touchParent (c :: cs)).lookup l =
      if l = (c :: cs).dropLast then (fs.lookup l).map (Node.setModTime fs.clock)
      else fs.lookup l := by
  unfold FS.touchParent
  simp only
  cases hp : fs.lookup (c :: cs).dropLast with
  | none =>
    by_cases h : l = (c :: cs).dropLast
    · subst h; simp [hp]
    · simp [h]
  | some n =>
    simp only
    rw [FS.lookup_put]
    by_cases h : l = (c :: cs).dropLast
    · subst h; simp [hp]
    · simp [h]

/-- The other fields after the updates. -/
theorem FS.clock_put (fs : FS) (l : Loc) (n : Node) : (fs.put l n).clock = fs.clock := rfl

/-- Relabelling the keys: what is found under `l` afterwards is what was found
under `l0`, when exactly the entries of `l0` get the key `l`. -/
theorem lookup_map_key (xs : List (Loc × Node)) (f : Loc × Node → Loc × Node) (l l0 : Loc)
    (hval : ∀ kv, (f kv).2 = kv.2) (hkey : ∀ kv ∈ xs, ((f kv).1 = l ↔ kv.1 = l0)) :
    (xs.map f).lookup l = xs.lookup l0 := by
  induction xs with
  | nil => rfl
  | cons kv xs ih =>
    have ih' := ih (fun kv h => hkey kv (List.mem_cons_of_mem _ h))
    have hk := hkey kv (List.mem_cons_self _ _)
    obtain ⟨k, v⟩ := kv
    rw [List.map_cons]
    have e : f (k, v) = ((f (k, v)).1, v) := by
      have := hval (k, v)
      exact Prod.ext rfl this
    rw [e, List.lookup_cons, List.lookup_cons, ih']
    by_cases h : k = l0
    · have h1 : (f (k, v)).1 = l := hk.mpr h
      have a1 : (l == (f (k, v)).1) = true := by simp [h1]
      have a2 : (l0 == k) = true := by simp [h]
      rw [a1, a2]
    · have h1 : ¬ (f (k, v)).1 = l := fun h' => h (hk.mp h')
      have a1 : (l == (f (k, v)).1) = false := by simpa using fun h' => h1 h'.symm
      have a2 : (l0 == k) = false := by simpa using fun h' => h h'.symm
      rw [a1, a2]

/-- Relabelling the keys: nothing is found under a key no entry gets. -/
theorem lookup_map_none (xs : List (Loc × Node)) (f : Loc × Node → Loc × Node) (l : Loc)
    (hkey : ∀ kv ∈ xs, (f kv).1 ≠ l) : (xs.map f).lookup l = none := by
  induction xs with
  | nil => rfl
  | cons kv xs ih =>
    have ih' := ih (fun kv h => hkey kv (List.mem_cons_of_mem _ h))
    have hk := hkey kv (List.mem_cons_self _ _)
    rw [List.map_cons]
    have e : f kv = ((f kv).1, (f kv).2) := rfl
    rw [e, List.lookup_cons, ih']
    have a1 : (l == (f kv).1) = false := by simpa using fun h' => hk h'.symm
    rw [a1]

/-- After `moveTree` the destination holds what the source held. -/
theorem FS.lookup_moveTree_dst (fs : FS) (src dst : Loc) (h2 : ¬ dst <+: src) :
    (fs.moveTree src dst).lookup dst = fs.lookup src := by
  have hd : (fs.dropTree dst).lookup src = fs.lookup src := by
    rw [FS.lookup_dropTree]
    simp [h2]
  rw [← hd]
  unfold FS.moveTree FS.lookup
  apply lookup_map_key
  · intro kv; split <;> rfl
  · intro kv hkv
    have hnd : ¬ dst <+: kv.1 := by
      intro hp
      have hq : dst.isPrefixOf kv.1 = true := List.isPrefixOf_iff_prefix.mpr hp
      simp only [FS.dropTree, List.mem_filter] at hkv
      have h3 := hkv.2
      rw [hq] at h3
      exact absurd h3 (by decide)
    by_cases hs : src <+: kv.1
    · have hs' : src.isPrefixOf kv.1 = true := by simpa using hs
      simp only [hs', if_true]
      obtain ⟨t, ht⟩ := hs
      rw [← ht]
      simp
    · have hs' : ¬ src.isPrefixOf kv.1 = true := by simpa using hs
      simp only [hs', Bool.false_eq_true, if_false]
      constructor
      · intro h; exact absurd (h ▸ List.prefix_refl _) hnd
      · intro h; exact absurd (h ▸ List.prefix_refl _) hs

/-- After `moveTree` the source holds nothing. -/
theorem FS.lookup_moveTree_src (fs : FS) (src dst : Loc) (h2 : ¬ dst <+: src) :
    (fs.moveTree src dst).lookup src = none := by
  unfold FS.moveTree FS.lookup
  apply lookup_map_none
  intro kv _
  by_cases hs : src <+: kv.1
  · have hs' : src.isPrefixOf kv.1 = true := by simpa using hs
    simp only [hs', if_true]
    intro h
    exact h2 (h ▸ List.prefix_append _ _)
  · have hs' : ¬ src.isPrefixOf kv.1 = true := by simpa using hs
    simp only [hs', Bool.false_eq_true, if_false]
    intro h
    exact hs (h ▸ List.prefix_refl _)

/-- `moveTree` leaves alone what is neither below the source nor below the
destination. -/
theorem FS.lookup_moveTree_other (fs : FS) (src dst l : Loc)
    (h1 : ¬ src <+: l) (h2 : ¬ dst <+: l) :
    (fs.moveTree src dst).lookup l = fs.lookup l := by
  have hd : (fs.dropTree dst).lookup l = fs.lookup l := by
    rw [FS.lookup_dropTree]
    simp [h2]
  rw [← hd]
  unfold FS.moveTree FS.lookup
  apply lookup_map_key
  · intro kv; split <;> rfl
  · intro kv _
    by_cases hs : src <+: kv.1
    · have hs' : src.isPrefixOf kv.1 = true := by simpa using hs
      simp only [hs', if_true]
      constructor
      · intro h; exact absurd (h ▸ List.prefix_append _ _) h2
      · intro h; exact absurd (h ▸ hs) h1
    · have hs' : ¬ src.isPrefixOf kv.1 = true := by simpa using hs
      simp only [hs', Bool.false_eq_true, if_false]

/-- A place holds a directory when a directory node is found there. -/
theorem FS.isDirAt_iff (fs : FS) (l : Loc) :
    fs.isDirAt l = true ↔ ∃ p t, fs.lookup l = some (Node.dir p t) := by
  unfold FS.isDirAt
  cases h : fs.lookup l with
  | none => simp
  | some n => cases n <;> simp

/-- The path `/d/f` names the place `d`, `f` when `/` and `/d` are directories. -/
theorem resolve_src (fs : FS) (h0 : fs.isDirAt [] = true) (h1 : fs.isDirAt [['d']] = true) :
    resolve fs ['/', 'd', '/', 'f'] = Except.ok [['d'], ['f']] := by
  obtain ⟨p0, t0, e0⟩ := (fs.isDirAt_iff _).mp h0
  obtain ⟨p1, t1, e1⟩ := (fs.isDirAt_iff _).mp h1
  have hs : splitSep ['/', 'd', '/', 'f'] = [[], ['d'], ['f']] := by decide
  simp [resolve, hs, walkFrom, e0, e1]

/-- The path `/d/f.bak` names the place `d`, `f.bak` when `/` and `/d` are
directories. -/
theorem resolve_bak (fs : FS) (h0 : fs.isDirAt [] = true) (h1 : fs.isDirAt [['d']] = true) :
    resolve fs ['/', 'd', '/', 'f', '.', 'b', 'a', 'k'] =
      Except.ok [['d'], ['f', '.', 'b', 'a', 'k']] := by
  obtain ⟨p0, t0, e0⟩ := (fs.isDirAt_iff _).mp h0
  obtain ⟨p1, t1, e1⟩ := (fs.isDirAt_iff _).mp h1
  have hs : splitSep ['/', 'd', '/', 'f', '.', 'b', 'a', 'k'] =
      [[], ['d'], ['f', '.', 'b', 'a', 'k']] := by decide
  simp [resolve, hs, walkFrom, e0, e1]

/-- If `/d/f` can be looked up, `/` and `/d` are directories. -/
theorem spine_of_fileOrFree (fs : FS) (h : fileOrFree fs ['/', 'd', '/', 'f'] = true) :
    fs.isDirAt [] = true ∧ fs.isDirAt [['d']] = true := by
  have hs : splitSep ['/', 'd', '/', 'f'] = [[], ['d'], ['f']] := by decide
  unfold fileOrFree resolve at h
  simp only [hs] at h
  cases e0 : fs.lookup [] with
  | none => simp [walkFrom, e0] at h
  | some n0 =>
    cases n0 with
    | file _ _ _ => simp [walkFrom, e0] at h
    | dir p0 t0 =>
      cases e1 : fs.lookup [['d']] with
      | none => simp [walkFrom, e0, e1] at h
      | some n1 =>
        cases n1 with
        | file _ _ _ => simp [walkFrom, e0, e1] at h
        | dir p1 t1 => simp [FS.isDirAt, e0, e1]

/-- The states of `localOk` for `/d/f` and `/d/f.bak`, read off the tree. -/
theorem localOk_iff (fs : FS) :
    localOk ['/', 'd', '/', 'f'] ['/', 'd', '/', 'f', '.', 'b', 'a', 'k'] fs ↔
      fs.isDirAt [] = true ∧ fs.isDirAt [['d']] = true ∧
      fs.isDirAt [['d'], ['f']] = false ∧
      fs.isDirAt [['d'], ['f', '.', 'b', 'a', 'k']] = false := by
  constructor
  · intro h
    obtain ⟨h0, h1⟩ := spine_of_fileOrFree fs h.1
    have ha := h.1
    have hb := h.2
    simp only [fileOrFree, resolve_src fs h0 h1, resolve_bak fs h0 h1] at ha hb
    refine ⟨h0, h1, ?_, ?_⟩
    · unfold FS.isDirAt
      cases e : fs.lookup [['d'], ['f']] with
      | none => rfl
      | some n => cases n <;> simp [e] at ha ⊢
    · unfold FS.isDirAt
      cases e : fs.lookup [['d'], ['f', '.', 'b', 'a', 'k']] with
      | none => rfl
      | some n => cases n <;> simp [e] at hb ⊢
  · rintro ⟨h0, h1, h2, h3⟩
    unfold localOk fileOrFree
    rw [resolve_src fs h0 h1, resolve_bak fs h0 h1]
    unfold FS.isDirAt at h2 h3
    constructor
    · cases e : fs.lookup [['d'], ['f']] with
      | none => simp [e]
      | some n => cases n <;> simp [e] at h2 ⊢
    · cases e : fs.lookup [['d'], ['f', '.', 'b', 'a', 'k']] with
      | none => simp [e]
      | some n => cases n <;> simp [e] at h3 ⊢

/-- `PathExists("/d/f")` on the local filesystem. -/
theorem local_exists_src (c : Int) (k : Nat) (fs : FS)
    (h0 : fs.isDirAt [] = true) (h1 : fs.isDirAt [['d']] = true) :
    (localBackuper c k).PathExists ['/', 'd', '/', 'f'] fs =
      ((fs.lookup [['d'], ['f']]).isSome, fs) := by
  simp only [localBackuper, LocalBackupImpl.PathExists, osStat, resolve_src fs h0 h1]
  cases fs.lookup [['d'], ['f']] <;> simp [LocalWorld.log, Errno.isNotExist]

/-- `PathExists("/d/f.bak")` on the local filesystem. -/
theorem local_exists_bak (c : Int) (k : Nat) (fs : FS)
    (h0 : fs.isDirAt [] = true) (h1 : fs.isDirAt [['d']] = true) :
    (localBackuper c k).PathExists ['/', 'd', '/', 'f', '.', 'b', 'a', 'k'] fs =
      ((fs.lookup [['d'], ['f', '.', 'b', 'a', 'k']]).isSome, fs) := by
  simp only [localBackuper, LocalBackupImpl.PathExists, osStat, resolve_bak fs h0 h1]
  cases fs.lookup [['d'], ['f', '.', 'b', 'a', 'k']] <;> simp [LocalWorld.log, Errno.isNotExist]

/-- `RemoveAll("/d/f")` on the local filesystem. -/
theorem local_removeAll_src (c : Int) (k : Nat) (fs : FS)
    (h0 : fs.isDirAt [] = true) (h1 : fs.isDirAt [['d']] = true) :
    (localBackuper c k).RemoveAll ['/', 'd', '/', 'f'] fs =
      (none, match fs.lookup [['d'], ['f']] with
        | none => fs
        | some _ => ((fs.dropTree [['d'], ['f']]).touchParent [['d'], ['f']]).tick) := by
  have hd : endsWithDot ['/', 'd', '/', 'f'] = false := by decide
  simp only [localBackuper, LocalBackupImpl.RemoveAll, osRemoveAll, resolve_src fs h0 h1, hd]
  cases fs.lookup [['d'], ['f']] <;> simp

/-- `RemoveAll("/d/f.bak")` on the local filesystem. -/
theorem local_removeAll_bak (c : Int) (k : Nat) (fs : FS)
    (h0 : fs.isDirAt [] = true) (h1 : fs.isDirAt [['d']] = true) :
    (localBackuper c k).RemoveAll ['/', 'd', '/', 'f', '.', 'b', 'a', 'k'] fs =
      (none, match fs.lookup [['d'], ['f', '.', 'b', 'a', 'k']] with
        | none => fs
        | some _ => ((fs.dropTree [['d'], ['f', '.', 'b', 'a', 'k']]).touchParent
            [['d'], ['f', '.', 'b', 'a', 'k']]).tick) := by
  have hd : endsWithDot ['/', 'd', '/', 'f', '.', 'b', 'a', 'k'] = false := by decide
  simp only [localBackuper, LocalBackupImpl.RemoveAll, osRemoveAll, resolve_bak fs h0 h1, hd]
  cases fs.lookup [['d'], ['f', '.', 'b', 'a', 'k']] <;> simp

/-- The places of the example after a node of `/d` was removed. -/
theorem removed_lookups (fs : FS) (x : GoString) (l : Loc) :
    (((fs.dropTree [['d'], x]).touchParent [['d'], x]).tick).lookup l =
      if l = [['d']] then (fs.lookup [['d']]).map (Node.setModTime fs.clock)
      else if List.isPrefixOf [['d'], x] l then none else fs.lookup l := by
  have hc : (fs.dropTree [['d'], x]).clock = fs.clock := rfl
  rw [FS.lookup_tick, FS.lookup_touchParent, hc]
  by_cases h : l = [['d']]
  · subst h
    simp [FS.lookup_dropTree]
  · simp [h, FS.lookup_dropTree]

/-- `Copy("/d/f", "/d/f.bak")` on the local filesystem, for a regular file at
`/d/f` and nothing at `/d/f.bak`: the call returns `nil`, and afterwards both
paths hold the file. -/
theorem local_copy_file (c : Int) (k : Nat) (fs : FS)
    (h0 : fs.isDirAt [] = true) (h1 : fs.isDirAt [['d']] = true)
    (q t : Nat) (data : GoString)
    (hs : fs.lookup [['d'], ['f']] = some (Node.file q t data))
    (hb : fs.lookup [['d'], ['f', '.', 'b', 'a', 'k']] = none) :
    ∃ fs', (localBackuper c k).Copy ['/', 'd', '/', 'f'] ['/', 'd', '/', 'f', '.', 'b', 'a', 'k'] fs
        = (none, fs') ∧
      fs'.isDirAt [] = true ∧ fs'.isDirAt [['d']] = true ∧
      fs'.lookup [['d'], ['f']] = some (Node.file q t data) ∧
      fs'.lookup [['d'], ['f', '.', 'b', 'a', 'k']] = some (Node.file q t data) := by
  obtain ⟨p0, t0, e0⟩ := (fs.isDirAt_iff _).mp h0
  obtain ⟨p1, t1, e1⟩ := (fs.isDirAt_iff _).mp h1
  -- the states on the way
  have hstat : osStat fs ['/', 'd', '/', 'f'] = Except.ok ⟨false, q, t⟩ := by
    simp [osStat, resolve_src fs h0 h1, hs, Node.isDir, Node.perm, Node.modTime]
  have hstatb : osStat fs ['/', 'd', '/', 'f', '.', 'b', 'a', 'k'] =
      Except.error Errno.ENOENT := by
    simp [osStat, resolve_bak fs h0 h1, hb]
  have hopen : osOpen fs ['/', 'd', '/', 'f'] = Except.ok [['d'], ['f']] := by
    simp [osOpen, resolve_src fs h0 h1, hs]
  have hcreate : osOpenFileCreateTrunc fs ['/', 'd', '/', 'f', '.', 'b', 'a', 'k'] q =
      (Except.ok [['d'], ['f', '.', 'b', 'a', 'k']],
        ((fs.put [['d'], ['f', '.', 'b', 'a', 'k']]
          (Node.file (applyUmask fs q) fs.clock [])).touchParent
            [['d'], ['f', '.', 'b', 'a', 'k']]).tick) := by
    simp [osOpenFileCreateTrunc, resolve_bak fs h0 h1, hb, e1]
  generalize hfs4 : ((fs.put [['d'], ['f', '.', 'b', 'a', 'k']]
          (Node.file (applyUmask fs q) fs.clock [])).touchParent
            [['d'], ['f', '.', 'b', 'a', 'k']]).tick = fs4 at hcreate
  have l4 : ∀ l, fs4.lookup l =
      if l = [['d']] then some (Node.dir p1 fs.clock)
      else if l = [['d'], ['f', '.', 'b', 'a', 'k']] then
        some (Node.file (applyUmask fs q) fs.clock [])
      else fs.lookup l := by
    intro l
    rw [← hfs4, FS.lookup_tick, FS.lookup_touchParent, FS.clock_put]
    by_cases h : l = [['d']]
    · subst h
      simp [FS.lookup_put, e1, Node.setModTime]
    · simp [h, FS.lookup_put]
  have hio : ioCopy fs4 [['d'], ['f', '.', 'b', 'a', 'k']] [['d'], ['f']] =
      (none, (fs4.put [['d'], ['f', '.', 'b', 'a', 'k']]
        (Node.file (applyUmask fs q) fs4.clock data)).tick) := by
    simp [ioCopy, l4, hs]
  generalize hfs5 : (fs4.put [['d'], ['f', '.', 'b', 'a', 'k']]
        (Node.file (applyUmask fs q) fs4.clock data)).tick = fs5 at hio
  have l5 : ∀ l, fs5.lookup l =
      if l = [['d'], ['f', '.', 'b', 'a', 'k']] then
        some (Node.file (applyUmask fs q) fs4.clock data)
      else fs4.lookup l := by
    intro l
    rw [← hfs5, FS.lookup_tick, FS.lookup_put]
  have h50 : fs5.isDirAt [] = true := by simp [FS.isDirAt, l5, l4, e0]
  have h51 : fs5.isDirAt [['d']] = true := by simp [FS.isDirAt, l5, l4]
  have hcht : osChtimes fs5 ['/', 'd', '/', 'f', '.', 'b', 'a', 'k'] t =
      (none, fs5.put [['d'], ['f', '.', 'b', 'a', 'k']] (Node.file (applyUmask fs q) t data)) := by
    simp [osChtimes, resolve_bak fs5 h50 h51, l5, Node.setModTime]
  generalize hfs6 : fs5.put [['d'], ['f', '.', 'b', 'a', 'k']]
    (Node.file (applyUmask fs q) t data) = fs6 at hcht
  have l6 : ∀ l, fs6.lookup l =
      if l = [['d'], ['f', '.', 'b', 'a', 'k']] then some (Node.file (applyUmask fs q) t data)
      else fs5.lookup l := by
    intro l
    rw [← hfs6, FS.lookup_put]
  have h60 : fs6.isDirAt [] = true := by simp [FS.isDirAt, l6, l5, l4, e0]
  have h61 : fs6.isDirAt [['d']] = true := by simp [FS.isDirAt, l6, l5, l4]
  have hchm : osChmod fs6 ['/', 'd', '/', 'f', '.', 'b', 'a', 'k'] q =
      (none, fs6.put [['d'], ['f', '.', 'b', 'a', 'k']] (Node.file q t data)) := by
    simp [osChmod, resolve_bak fs6 h60 h61, l6, Node.setPerm]
  refine ⟨fs6.put [['d'], ['f', '.', 'b', 'a', 'k']] (Node.file q t data), ?_, ?_, ?_, ?_, ?_⟩
  · simp [localBackuper, LocalBackupImpl.Copy, LocalBackupImpl.copyFile,
      LocalBackupImpl.removeOld, LocalBackupImpl.PathExists, LocalBackupImpl.preserveMetadata,
      LocalWorld.log, hstat, hstatb, hopen, hcreate, hio, hcht, hchm, Errno.isNotExist]
  · simp [FS.isDirAt, FS.lookup_put, l6, l5, l4, e0]
  · simp [FS.isDirAt, FS.lookup_put, l6, l5, l4]
  · simp [FS.lookup_put, l6, l5, l4, hs]
  · simp [FS.lookup_put]

/-- `Copy("/d/f", dst)` on the local filesystem fails when nothing is at
`/d/f`. -/
theorem local_copy_missing (c : Int) (k : Nat) (fs : FS) (dst : GoString)
    (h0 : fs.isDirAt [] = true) (h1 : fs.isDirAt [['d']] = true)
    (hs : fs.lookup [['d'], ['f']] = none) :
    ((localBackuper c k).Copy ['/', 'd', '/', 'f'] dst fs).1 ≠ none := by
  have hstat : osStat fs ['/', 'd', '/', 'f'] = Except.error Errno.ENOENT := by
    simp [osStat, resolve_src fs h0 h1, hs]
  simp [localBackuper, LocalBackupImpl.Copy, hstat]

/-- `Rename("/d/f.bak", "/d/f")` on the local filesystem, for something at
`/d/f.bak` and nothing at `/d/f`: the call returns `nil` and moves the node. -/
theorem local_rename_back (c : Int) (k : Nat) (fs : FS)
    (h0 : fs.isDirAt [] = true) (h1 : fs.isDirAt [['d']] = true) (n : Node)
    (hb : fs.lookup [['d'], ['f', '.', 'b', 'a', 'k']] = some n)
    (hs : fs.lookup [['d'], ['f']] = none) :
    ∃ fs', (localBackuper c k).Rename ['/', 'd', '/', 'f', '.', 'b', 'a', 'k']
        ['/', 'd', '/', 'f'] fs = (none, fs') ∧
      fs'.isDirAt [] = true ∧ fs'.isDirAt [['d']] = true ∧
      fs'.lookup [['d'], ['f']] = some n ∧
      fs'.lookup [['d'], ['f', '.', 'b', 'a', 'k']] = none := by
  obtain ⟨p0, t0, e0⟩ := (fs.isDirAt_iff _).mp h0
  obtain ⟨p1, t1, e1⟩ := (fs.isDirAt_iff _).mp h1
  have hstat : osStat fs ['/', 'd', '/', 'f'] = Except.error Errno.ENOENT := by
    simp [osStat, resolve_src fs h0 h1, hs]
  have hd1 : lastElemDot ['/', 'd', '/', 'f'] = false := by decide
  have hd2 : lastElemDot ['/', 'd', '/', 'f', '.', 'b', 'a', 'k'] = false := by decide
  have hsys : sysRename fs ['/', 'd', '/', 'f', '.', 'b', 'a', 'k'] ['/', 'd', '/', 'f'] =
      (none, (((fs.moveTree [['d'], ['f', '.', 'b', 'a', 'k']] [['d'], ['f']]).touchParent
        [['d'], ['f', '.', 'b', 'a', 'k']]).touchParent [['d'], ['f']]).tick) := by
    simp [sysRename, resolve_src fs h0 h1, resolve_bak fs h0 h1, hd1, hd2, hb, hs, e1]
  generalize hm : (((fs.moveTree [['d'], ['f', '.', 'b', 'a', 'k']] [['d'], ['f']]).touchParent
        [['d'], ['f', '.', 'b', 'a', 'k']]).touchParent [['d'], ['f']]).tick = fs' at hsys
  have m0 : (fs.moveTree [['d'], ['f', '.', 'b', 'a', 'k']] [['d'], ['f']]).lookup [] =
      some (Node.dir p0 t0) := by
    rw [FS.lookup_moveTree_other _ _ _ _ (by decide) (by decide), e0]
  have m1 : (fs.moveTree [['d'], ['f', '.', 'b', 'a', 'k']] [['d'], ['f']]).lookup [['d']] =
      some (Node.dir p1 t1) := by
    rw [FS.lookup_moveTree_other _ _ _ _ (by decide) (by decide), e1]
  have m2 : (fs.moveTree [['d'], ['f', '.', 'b', 'a', 'k']] [['d'], ['f']]).lookup
      [['d'], ['f']] = some n := by
    rw [FS.lookup_moveTree_dst _ _ _ (by decide), hb]
  have m3 : (fs.moveTree [['d'], ['f', '.', 'b', 'a', 'k']] [['d'], ['f']]).lookup
      [['d'], ['f', '.', 'b', 'a', 'k']] = none :=
    FS.lookup_moveTree_src _ _ _ (by decide)
  refine ⟨fs', ?_, ?_, ?_, ?_, ?_⟩
  · simp [localBackuper, LocalBackupImpl.Rename, osRename, hstat, hsys]
  · simp [← hm, FS.isDirAt, FS.lookup_tick, FS.lookup_touchParent, m0]
  · simp [← hm, FS.isDirAt, FS.lookup_tick, FS.lookup_touchParent, m1, Node.setModTime]
  · simp [← hm, FS.lookup_tick, FS.lookup_touchParent, m2]
  · simp [← hm, FS.lookup_tick, FS.lookup_touchParent, m3]

/-- The local filesystem obeys the filesystem laws on the paths `/d/f` and
`/d/f.bak`, in every state in which `/` and `/d` are directories and neither
path holds a directory. -/
theorem localBackuper_fsLike (c : Int) (k : Nat) :
    FsLike (localBackuper c k) localRead
      (localOk "/d/f".toList "/d/f.bak".toList) (localFree "/d/f".toList "/d/f.bak".toList)
      False "/d/f".toList "/d/f.bak".toList := by
  have eS : "/d/f".toList = ['/', 'd', '/', 'f'] := rfl
  have eB : "/d/f.bak".toList = ['/', 'd', '/', 'f', '.', 'b', 'a', 'k'] := rfl
  rw [eS, eB]
  have rS : ∀ s, s.isDirAt [] = true → s.isDirAt [['d']] = true →
      localRead s ['/', 'd', '/', 'f'] = s.lookup [['d'], ['f']] := by
    intro s h0 h1
    simp [localRead, resolve_src s h0 h1]
  have rB : ∀ s, s.isDirAt [] = true → s.isDirAt [['d']] = true →
      localRead s ['/', 'd', '/', 'f', '.', 'b', 'a', 'k'] =
        s.lookup [['d'], ['f', '.', 'b', 'a', 'k']] := by
    intro s h0 h1
    simp [localRead, resolve_bak s h0 h1]
  refine ⟨?_, ?_, ?_, ?_, ?_, ?_⟩
  · intro s hs
    obtain ⟨h0, h1, _, _⟩ := (localOk_iff s).mp hs
    rw [rS s h0 h1]
    exact local_exists_src c k s h0 h1
  · intro s hs
    obtain ⟨h0, h1, _, _⟩ := (localOk_iff s).mp hs
    rw [rB s h0 h1]
    exact local_exists_bak c k s h0 h1
  · intro s hs _
    obtain ⟨h0, h1, h2, h3⟩ := (localOk_iff s).mp hs
    rw [local_removeAll_bak c k s h0 h1]
    cases hb : s.lookup [['d'], ['f', '.', 'b', 'a', 'k']] with
    | none =>
      simp only
      exact ⟨hs, by rw [rB s h0 h1, hb], Or.inl trivial⟩
    | some n =>
      simp only
      have g0 : (((s.dropTree [['d'], ['f', '.', 'b', 'a', 'k']]).touchParent
          [['d'], ['f', '.', 'b', 'a', 'k']]).tick).isDirAt [] = true := by
        unfold FS.isDirAt at h0 ⊢
        rw [removed_lookups]
        simpa using h0
      have g1 : (((s.dropTree [['d'], ['f', '.', 'b', 'a', 'k']]).touchParent
          [['d'], ['f', '.', 'b', 'a', 'k']]).tick).isDirAt [['d']] = true := by
        obtain ⟨p1, t1, e1⟩ := (s.isDirAt_iff _).mp h1
        refine (FS.isDirAt_iff _ _).mpr ⟨p1, s.clock, ?_⟩
        rw [removed_lookups]
        simp [e1, Node.setModTime]
      have g2 : (((s.dropTree [['d'], ['f', '.', 'b', 'a', 'k']]).touchParent
          [['d'], ['f', '.', 'b', 'a', 'k']]).tick).lookup [['d'], ['f']] =
          s.lookup [['d'], ['f']] := by
        rw [removed_lookups]
        simp
      have g3 : (((s.dropTree [['d'], ['f', '.', 'b', 'a', 'k']]).touchParent
          [['d'], ['f', '.', 'b', 'a', 'k']]).tick).lookup [['d'], ['f', '.', 'b', 'a', 'k']] =
          none := by
        rw [removed_lookups]
        simp
      refine ⟨(localOk_iff _).mpr ⟨g0, g1, ?_, ?_⟩, ?_, Or.inl ?_⟩
      · unfold FS.isDirAt at h2 ⊢
        rw [g2]; exact h2
      · unfold FS.isDirAt
        rw [g3]
      · rw [rB _ g0 g1, g3]
      · rw [rS _ g0 g1, g2, rS s h0 h1]
  · intro s hs hab hcp
    obtain ⟨h0, h1, h2, h3⟩ := (localOk_iff s).mp hs
    rw [rB s h0 h1] at hab
    rw [rS s h0 h1]
    cases hsrc : s.lookup [['d'], ['f']] with
    | none => exact absurd hcp (local_copy_missing c k s _ h0 h1 hsrc)
    | some n =>
      cases n with
      | dir p t => simp [FS.isDirAt, hsrc] at h2
      | file q t data =>
        obtain ⟨fs', e, g0, g1, g2, g3⟩ := local_copy_file c k s h0 h1 q t data hsrc hab
        rw [e]
        refine ⟨(localOk_iff _).mpr ⟨g0, g1, ?_, ?_⟩, rfl, not_false, ?_⟩
        · simp [FS.isDirAt, g2]
        · simp [FS.isDirAt, g3]
        · simp only
          rw [rB _ g0 g1, g3]
  · intro s hs hex
    obtain ⟨h0, h1, h2, h3⟩ := (localOk_iff s).mp hs
    rw [rS s h0 h1] at hex
    rw [local_removeAll_src c k s h0 h1]
    cases hsrc : s.lookup [['d'], ['f']] with
    | none => simp [hsrc] at hex
    | some n =>
      simp only
      have g0 : (((s.dropTree [['d'], ['f']]).touchParent [['d'], ['f']]).tick).isDirAt []
          = true := by
        unfold FS.isDirAt at h0 ⊢
        rw [removed_lookups]
        simpa using h0
      have g1 : (((s.dropTree [['d'], ['f']]).touchParent [['d'], ['f']]).tick).isDirAt [['d']]
          = true := by
        obtain ⟨p1, t1, e1⟩ := (s.isDirAt_iff _).mp h1
        refine (FS.isDirAt_iff _ _).mpr ⟨p1, s.clock, ?_⟩
        rw [removed_lookups]
        simp [e1, Node.setModTime]
      have g2 : (((s.dropTree [['d'], ['f']]).touchParent [['d'], ['f']]).tick).lookup
          [['d'], ['f']] = none := by
        rw [removed_lookups]
        simp
      have g3 : (((s.dropTree [['d'], ['f']]).touchParent [['d'], ['f']]).tick).lookup
          [['d'], ['f', '.', 'b', 'a', 'k']] = s.lookup [['d'], ['f', '.', 'b', 'a', 'k']] := by
        rw [removed_lookups]
        simp
      refine ⟨trivial, ⟨(localOk_iff _).mpr ⟨g0, g1, ?_, ?_⟩, ?_⟩, fun _ => ?_⟩
      · unfold FS.isDirAt
        rw [g2]
      · unfold FS.isDirAt at h3 ⊢
        rw [g3]; exact h3
      · rw [rS _ g0 g1, g2]
      · rw [rB _ g0 g1, g3, rB s h0 h1]
  · intro s hfree hex
    obtain ⟨hs, hnone⟩ := hfree
    obtain ⟨h0, h1, h2, h3⟩ := (localOk_iff s).mp hs
    rw [rB s h0 h1] at hex
    rw [rS s h0 h1] at hnone
    rw [rB s h0 h1]
    cases hb : s.lookup [['d'], ['f', '.', 'b', 'a', 'k']] with
    | none => simp [hb] at hex
    | some n =>
      obtain ⟨fs', e, g0, g1, g2, g3⟩ := local_rename_back c k s h0 h1 n hb hnone
      rw [e]
      simp only
      refine ⟨trivial, (localOk_iff _).mpr ⟨g0, g1, ?_, ?_⟩, ?_, ?_⟩
      · unfold FS.isDirAt at h3 ⊢
        rw [g2]
        rw [hb] at h3
        exact h3
      · unfold FS.isDirAt
        rw [g3]
      · rw [rS _ g0 g1, g2]
      · rw [rB _ g0 g1, g3]

/-- C1 on the local filesystem, on the run of `TestLocalBackup`: back up `/d/f`
to `/d/f.bak`, overwrite `/d/f` with "modified", undo.  The undo action
returns no error, `/d/f` holds the file it held before the backup and
`/d/f.bak` is gone. -/
theorem backup_undo_round_trip_witness :
    (restoreAction (localBackuper 0 1) "/d/f".toList "/d/f.bak".toList
      ⟨overwrittenFS, []⟩).1 = none ∧
    localRead (restoreAction (localBackuper 0 1) "/d/f".toList "/d/f.bak".toList
      ⟨overwrittenFS, []⟩).2.state "/d/f".toList =
        some (Node.file 0o644 20 "content".toList) ∧
    ((localBackuper 0 1).PathExists "/d/f.bak".toList
      (restoreAction (localBackuper 0 1) "/d/f".toList "/d/f.bak".toList
        ⟨overwrittenFS, []⟩).2.state).1 = false := by
  have hbp : generateBackupPath "/d/f".toList
      (effectiveOption exampleNow [⟨".bak".toList, true, false⟩]).Suffix = "/d/f.bak".toList := by
    decide
  have hB : (Backup exampleNow (some ⟨[], []⟩) (localBackuper 0 1) "/d/f".toList
      [⟨".bak".toList, true, false⟩] ⟨exampleFS, []⟩).backupPath = "/d/f.bak".toList := by
    decide
  have h := backup_undo_round_trip exampleNow ⟨[], []⟩ "/d/f".toList
    [⟨".bak".toList, true, false⟩] ⟨exampleFS, []⟩ (Node.file 0o644 20 "content".toList)
    (by rw [hbp]; exact localBackuper_fsLike 0 1)
    (by show fileOrFree _ _ = true ∧ fileOrFree _ _ = true; decide)
    (by decide) (by decide) (by decide) ⟨overwrittenFS, []⟩
    (by show fileOrFree _ _ = true ∧ fileOrFree _ _ = true; decide)
    (by decide) (by decide)
  rw [hB] at h
  obtain ⟨_, _, _, _, h3, h4, h5⟩ := h
  exact ⟨h3, h4, h5⟩

end GoBackup
